import Mathlib

/-!
Shallow embedding of parts of the StarRocks backend execution layer:
the hash-join operator (`be/src/exec/hash_join_node.cpp`), the exchange
sender (`be/src/runtime/data_stream_sender.cpp`) and the aggregation
hash sets (`be/src/exec/vectorized/aggregate/agg_hash_set.h`), together
with proofs about them.

Machine integers that cannot overflow on the studied paths are modelled
by `Nat`/`Int`; fallible code returns `Except`.
-/

namespace StarRocks

/-! ## Common status type (`common/status.h`) -/

inductive Status where
  | ok : Status
  | internalError : Status
  | thriftRpcError : Status
deriving DecidableEq, Repr

/-! ## Hash join node (`exec/hash_join_node.cpp`) -/

inductive TJoinOp where
  | innerJoin : TJoinOp
  | leftOuterJoin : TJoinOp
  | leftSemiJoin : TJoinOp
  | leftAntiJoin : TJoinOp
  | rightOuterJoin : TJoinOp
  | rightSemiJoin : TJoinOp
  | rightAntiJoin : TJoinOp
  | fullOuterJoin : TJoinOp
deriving DecidableEq, Repr

/-- Configuration of a `HashJoinNode` relevant to `open`:
the join op, the `is_push_down` flag from the plan, the per-key
null-safe flags, the plan-node types of the two children, whether a
vectorized scan child disables scalar pushdown
(`_check_has_vectorized_scan_child`), and the number of conjuncts
attached to the build child (`child(1)->conjunct_ctxs().size()`). -/
structure HashJoinNodeConfig where
  join_op : TJoinOp
  is_push_down : Bool
  is_null_safe_eq_join : List Bool
  child0_is_exchange : Bool
  child1_is_exchange : Bool
  has_vectorized_scan_child : Bool
  build_child_conjuncts : ℕ
deriving DecidableEq, Repr

/-- Observable outcome of `HashJoinNode::open`: the final `_is_push_down`
flag, whether `push_down_predicate` was invoked (IN-predicates
synthesized and handed to the probe subtree), the `_eos` flag, and how
often `child(0)->get_next` was called while seeding the probe. -/
structure HashJoinOpenResult where
  is_push_down_final : Bool
  pushed_down : Bool
  eos : Bool
  probe_get_next_calls : ℕ
deriving DecidableEq, Repr

/-- The probe-seeding loop at the end of `HashJoinNode::open`
(lines 344-365): call `child(0)->get_next` until a non-empty batch
arrives or the child reports EOS; on EOS with an empty batch set
`_eos`.  The child is modelled as the list of batches it will produce;
it reports EOS together with its last answer. -/
def seedProbeLoop {α : Type} : List (List α) → ℕ × Bool
  | [] => (1, true)
  | b :: rest =>
      if b.isEmpty then
        if rest.isEmpty then (1, true)
        else
          let r := seedProbeLoop rest
          (r.1 + 1, r.2)
      else (1, false)

/-- Model of `HashJoinNode::open` (lines 211-368), restricted to the
error-free path.  `table_size` is `_hash_tbl->size()` after the build
side is drained; `probe_batches` is the sequence of batches the probe
child will produce.  The cascade of `_is_push_down = false` assignments
(both children exchange nodes, null-safe key, vectorized scan child)
mirrors lines 236-251, the inner-join empty-table short circuit mirrors
lines 259-267, the `> 1024` disable mirrors lines 269-271 and the
`_is_push_down || child(1)->conjunct_ctxs().size() != 0` guard on the
IN-predicate synthesis mirrors line 274. -/
def hashJoinOpen {α : Type} (cfg : HashJoinNodeConfig) (table_size : ℕ)
    (probe_batches : List (List α)) : HashJoinOpenResult :=
  let p1 := if cfg.child0_is_exchange && cfg.child1_is_exchange then false else cfg.is_push_down
  let p2 := if cfg.is_null_safe_eq_join.any (fun b => b) then false else p1
  let p3 := if cfg.has_vectorized_scan_child then false else p2
  if p3 then
    if table_size = 0 ∧ cfg.join_op = TJoinOp.innerJoin then
      { is_push_down_final := p3, pushed_down := false, eos := true, probe_get_next_calls := 0 }
    else
      let p4 := if 1024 < table_size then false else p3
      let pushed := p4 || decide (cfg.build_child_conjuncts ≠ 0)
      let seeded := seedProbeLoop probe_batches
      { is_push_down_final := p4, pushed_down := pushed, eos := seeded.2,
        probe_get_next_calls := seeded.1 }
  else
    let seeded := seedProbeLoop probe_batches
    { is_push_down_final := p3, pushed_down := false, eos := seeded.2,
      probe_get_next_calls := seeded.1 }

/-- The `_match_all_build` flag computed in the constructor. -/
def match_all_build (op : TJoinOp) : Bool :=
  op == TJoinOp.rightOuterJoin || op == TJoinOp.fullOuterJoin

/-- Dispatch structure of `HashJoinNode::get_next` (lines 370-388): the
simple joins go to `left_join_get_next` after an `_eos` check; the
right/full joins take the general path.  The two continuations abstract
the respective processing loops. -/
def hashJoinGetNext {α : Type} (op : TJoinOp) (eosFlag : Bool)
    (left_join_get_next general_path : Unit → List α × Bool) : List α × Bool :=
  if !(match_all_build op || op == TJoinOp.rightSemiJoin || op == TJoinOp.rightAntiJoin) then
    if eosFlag then ([], true) else left_join_get_next ()
  else
    general_path ()

/-! ### Right-anti join probe phase and unmatched-row emission

The hash table is modelled as the list of build rows paired with their
`matched` bits; `find(probe_row)` yields the chain of build rows whose
keys compare equal to the probe row, modelled by the `keyEq`
predicate. -/

/-- Effect on the matched bits of processing one probe row in the
general-path loop of `get_next` (lines 406-431) for a
`RIGHT_ANTI_JOIN`: walk the chain of key-equal build rows; rows already
marked are skipped; otherwise the concatenated output row is tested
against `other_join_conjuncts` and, on success, the build row is marked
matched.  Nothing is emitted. -/
def probe_ra_row {α β : Type} (keyEq other : α → β → Bool) (p : α)
    (rows : List (β × Bool)) : List (β × Bool) :=
  rows.map (fun bm =>
    if keyEq p bm.1 then
      if bm.2 then bm
      else if other p bm.1 then (bm.1, true) else bm
    else bm)

/-- The whole probe phase for `RIGHT_ANTI_JOIN`: every probe row is
processed in order against the table whose matched bits start clear. -/
def probe_ra_phase {α β : Type} (keyEq other : α → β → Bool) (probe : List α)
    (build : List β) : List (β × Bool) :=
  probe.foldl (fun rows p => probe_ra_row keyEq other p rows)
    (build.map (fun b => (b, false)))

/-- One call of the unmatched-build-row emission loop (lines 571-601):
scan the table from the stored cursor while the output batch has room;
skip rows whose matched bit is set; emit the others if they pass the
output `conjuncts` (a row failing them is added but not committed, so
it consumes no capacity).  Returns the emitted rows and the rows still
ahead of the cursor. -/
def right_anti_emit {β : Type} (conjuncts : β → Bool) :
    List (β × Bool) → ℕ → List β × List (β × Bool)
  | rows, 0 => ([], rows)
  | [], _ + 1 => ([], [])
  | bm :: rest, cap + 1 =>
      if bm.2 then right_anti_emit conjuncts rest (cap + 1)
      else if conjuncts bm.1 then
        let r := right_anti_emit conjuncts rest cap
        (bm.1 :: r.1, r.2)
      else right_anti_emit conjuncts rest (cap + 1)

/-- Repeated `get_next` calls after the probe side is drained: each call
gets a fresh output batch of the given capacity, resumes the hash-table
scan from the cursor stored in `_anti_join_last_pos` (lines 563-570 and
602-606), and reports `eos` when the iterator is exhausted. -/
def right_anti_drain {β : Type} (conjuncts : β → Bool) :
    List ℕ → List (β × Bool) → List β
  | [], _ => []
  | cap :: caps, rows =>
      let r := right_anti_emit conjuncts rows cap
      if r.2.isEmpty then r.1
      else r.1 ++ right_anti_drain conjuncts caps r.2

/-- A complete `RIGHT_ANTI_JOIN` run observed through `get_next`:
the probe phase computes the matched bits, then successive calls (with
output-batch capacities `caps`) drain the unmatched rows. -/
def right_anti_join_all {α β : Type} (keyEq other : α → β → Bool) (conjuncts : β → Bool)
    (probe : List α) (build : List β) (caps : List ℕ) : List β :=
  right_anti_drain conjuncts caps (probe_ra_phase keyEq other probe build)

/-! ## Exchange channel RPC state machine (`runtime/data_stream_sender.cpp`) -/

/-- Per-channel sender state relevant to the RPC ordering discipline:
`_request_seq`, the set of RPCs issued but not yet joined, the log of
all RPCs ever issued, and `_current_request_bytes`. -/
structure ChannelRpcState where
  request_seq : ℕ
  outstanding : List ℕ
  issued : List ℕ
  current_request_bytes : ℕ
deriving DecidableEq, Repr

/-- A fresh channel. -/
def initChannel : ChannelRpcState :=
  { request_seq := 0, outstanding := [], issued := [], current_request_bytes := 0 }

/-- Model of `Channel::_wait_prev_request` (lines 165-178): a no-op when
no RPC was ever issued; otherwise join the previous RPC (sequence
`_request_seq - 1`) and surface its observed status (transport failure
or the remote result). -/
def wait_prev_request (rpc_status : ℕ → Status) (st : ChannelRpcState) :
    Status × ChannelRpcState :=
  if st.request_seq = 0 then (Status.ok, st)
  else (rpc_status (st.request_seq - 1), { st with outstanding := [] })

/-- Model of `Channel::_do_send_chunk_rpc` (lines 350-365): stamp the
request with `_request_seq`, fire the asynchronous RPC, and increment
the sequence. -/
def do_send_chunk_rpc (st : ChannelRpcState) : ChannelRpcState :=
  { st with
    request_seq := st.request_seq + 1,
    outstanding := st.outstanding ++ [st.request_seq],
    issued := st.issued ++ [st.request_seq] }

/-- One `send_one_chunk` input: the serialized size of the appended
chunk, if any, and the `eos` flag. -/
structure SendChunkInput where
  chunk_bytes : Option ℕ
  eos : Bool
deriving DecidableEq, Repr

/-- Model of `Channel::send_one_chunk` (lines 306-337): accumulate the
chunk; once the accumulated bytes exceed the threshold or `eos` is set,
first join the previous RPC and propagate its status
(`RETURN_IF_ERROR(_wait_prev_request())`), then issue the next RPC and
reset the accumulation. -/
def send_one_chunk (rpc_status : ℕ → Status) (threshold : ℕ) (input : SendChunkInput)
    (st : ChannelRpcState) : Status × ChannelRpcState :=
  let st1 :=
    match input.chunk_bytes with
    | some b => { st with current_request_bytes := st.current_request_bytes + b }
    | none => st
  if threshold < st1.current_request_bytes ∨ input.eos then
    match wait_prev_request rpc_status st1 with
    | (Status.ok, st2) => (Status.ok, do_send_chunk_rpc { st2 with current_request_bytes := 0 })
    | (e, st2) => (e, st2)
  else (Status.ok, st1)

/-- A sequence of `send_one_chunk` calls on one channel. -/
def sendOneChunkTrace (rpc_status : ℕ → Status) (threshold : ℕ) :
    List SendChunkInput → ChannelRpcState → ChannelRpcState
  | [], st => st
  | i :: rest, st =>
      sendOneChunkTrace rpc_status threshold rest (send_one_chunk rpc_status threshold i st).2

/-- Channel sanity invariant: at most one RPC is outstanding, and an
outstanding RPC is the one issued last. -/
def ChannelInv (st : ChannelRpcState) : Prop :=
  st.outstanding.length ≤ 1 ∧ ∀ n ∈ st.outstanding, n + 1 = st.request_seq

/-! ## Exchange sender construction (`DataStreamSender::DataStreamSender`) -/

structure TUniqueId where
  hi : ℤ
  lo : ℤ
deriving DecidableEq, Repr

/-- A channel object as created by the constructor; it remembers the
fragment instance id it was created for. -/
structure SenderChannel where
  finstId : TUniqueId
deriving DecidableEq, Repr

/-- Lookup in the `fragment_id_to_channel_index` map, modelled as an
association list keyed by `fragment_instance_id.lo`. -/
def lookupLo : List (ℤ × ℕ) → ℤ → Option ℕ
  | [], _ => none
  | (k, v) :: rest, lo => if k = lo then some v else lookupLo rest lo

/-- The destination loop in the `DataStreamSender` constructor
(lines 506-522): for each destination, create a new channel object if
its `fragment_instance_id.lo` was not seen before (recording the index
in the map), otherwise reuse the recorded channel object; `_channels`
gets one entry per destination either way.  Returns
(`_channel_shared_ptrs`, `_channels` as indexes into it, final map). -/
def buildChannelsAux : List TUniqueId → List SenderChannel → List ℕ → List (ℤ × ℕ) →
    List SenderChannel × List ℕ × List (ℤ × ℕ)
  | [], objs, refs, m => (objs, refs, m)
  | d :: rest, objs, refs, m =>
      match lookupLo m d.lo with
      | none =>
          buildChannelsAux rest (objs ++ [{ finstId := d }]) (refs ++ [objs.length])
            (m ++ [(d.lo, objs.length)])
      | some idx => buildChannelsAux rest objs (refs ++ [idx]) m

/-- The constructor's channel setup, starting from empty state. -/
def buildChannels (dests : List TUniqueId) : List SenderChannel × List ℕ × List (ℤ × ℕ) :=
  buildChannelsAux dests [] [] []

/-! ## Hash-partitioned `send_chunk` (lines 740-798) -/

/-- The counting loop: `_channel_row_idx_start_points[ch[i]]++` for every
row (starting from an all-zero array of size `num_channels + 1`). -/
def count_loop (ch : ℕ → ℕ) (num_rows : ℕ) : ℕ → ℕ :=
  (List.range num_rows).foldl (fun sp i c => if c = ch i then sp c + 1 else sp c) (fun _ => 0)

/-- The in-place prefix-sum loop:
`for i in 1..=num_channels { sp[i] += sp[i-1] }`. -/
def prefix_sum_loop (num_channels : ℕ) (sp : ℕ → ℕ) : ℕ → ℕ :=
  (List.range num_channels).foldl (fun f c d => if d = c + 1 then f (c + 1) + f c else f d) sp

/-- The backwards fill loop:
`for i in (0..num_rows).rev { row_indexes[sp[ch[i]] - 1] = i; sp[ch[i]] -= 1 }`.
`fill_row_indexes ch k sp out` processes rows `k-1` down to `0`. -/
def fill_row_indexes (ch : ℕ → ℕ) : ℕ → (ℕ → ℕ) → (ℕ → ℕ) → (ℕ → ℕ) × (ℕ → ℕ)
  | 0, sp, out => (sp, out)
  | k + 1, sp, out =>
      fill_row_indexes ch k
        (fun d => if d = ch k then sp (ch k) - 1 else sp d)
        (fun p => if p = sp (ch k) - 1 then k else out p)

/-- Result of the hash-partitioned dispatch: the final
`_channel_row_idx_start_points`, the `_row_indexes` array, and the list
of `add_rows_selective` invocations as `(channel, from, size)`. -/
structure SendChunkHashResult where
  start_points : ℕ → ℕ
  row_indexes : ℕ → ℕ
  invocations : List (ℕ × ℕ × ℕ)

/-- Model of the `HASH_PARTITIONED` / `BUCKET_SHFFULE_HASH_PARTITIONED`
branch of `DataStreamSender::send_chunk`: compute per-row channels from
the hash values, count, prefix-sum, fill `row_indexes` backwards, then
call `add_rows_selective` once per channel, skipping channels with no
rows and channels whose destination `fragment_instance_id.lo` is `-1`. -/
def send_chunk_hash_partitioned (hash_values : ℕ → ℕ) (num_rows num_channels : ℕ)
    (channel_lo : ℕ → ℤ) : SendChunkHashResult :=
  let ch := fun i => hash_values i % num_channels
  let counts := count_loop ch num_rows
  let pre := prefix_sum_loop num_channels counts
  let filled := fill_row_indexes ch num_rows pre (fun _ => 0)
  { start_points := filled.1
    row_indexes := filled.2
    invocations := (List.range num_channels).filterMap (fun c =>
      let sz := filled.1 (c + 1) - filled.1 c
      if sz = 0 then none
      else if channel_lo c = -1 then none
      else some (c, filled.1 c, sz)) }

/-- Specification artifact: how many of the rows `k, ..., num_rows - 1`
fall in channel `c`. -/
def cntFrom (ch : ℕ → ℕ) (n k c : ℕ) : ℕ :=
  ((List.range' k (n - k)).filter (fun i => ch i = c)).length

/-- Specification artifact: how many of all `num_rows` rows fall in
channel `c`. -/
def cntAll (ch : ℕ → ℕ) (n c : ℕ) : ℕ :=
  ((List.range n).filter (fun i => ch i = c)).length

/-- Specification artifact: the inclusive prefix sum of the per-channel
row counts. -/
def preC (ch : ℕ → ℕ) (n c : ℕ) : ℕ :=
  ((List.range (c + 1)).map (cntAll ch n)).sum

/-! ## Chunk serialization and compression (`serialize_chunk`, lines 961-1018) -/

inductive CompressionTypePB where
  | noCompression : CompressionTypePB
  | lz4 : CompressionTypePB
  | snappy : CompressionTypePB
  | zlib : CompressionTypePB
deriving DecidableEq, Repr

/-- A block compression codec: the compression function and the maximum
input size it accepts. -/
structure BlockCompressionCodec where
  compress : List ℕ → List ℕ
  maxInputSize : ℕ

structure ChunkPB where
  data : List ℕ
  compressType : CompressionTypePB
  uncompressedSize : ℕ
deriving DecidableEq, Repr

/-- Model of `DataStreamSender::serialize_chunk`: serialize (the
serialized bytes are the input here), start from `NO_COMPRESSION`,
reject inputs beyond the codec's maximum, then attempt compression and
keep the compressed bytes only when
`uncompressed_size / compressed_size > config::rpc_compress_ratio_threshold`,
in which case `compress_type` is set to the configured codec type. -/
def serialize_chunk (codec : Option BlockCompressionCodec) (compress_type : CompressionTypePB)
    (threshold : ℚ) (serialized : List ℕ) : Except Status ChunkPB :=
  let uncompressed_size := serialized.length
  match codec with
  | none =>
      Except.ok { data := serialized, compressType := CompressionTypePB.noCompression,
                  uncompressedSize := uncompressed_size }
  | some c =>
      if c.maxInputSize < uncompressed_size then
        Except.error Status.internalError
      else if 0 < uncompressed_size then
        let compressed := c.compress serialized
        let compress_ratio_value : ℚ := (uncompressed_size : ℚ) / (compressed.length : ℚ)
        if threshold < compress_ratio_value then
          Except.ok { data := compressed, compressType := compress_type,
                      uncompressedSize := uncompressed_size }
        else
          Except.ok { data := serialized, compressType := CompressionTypePB.noCompression,
                      uncompressedSize := uncompressed_size }
      else
        Except.ok { data := serialized, compressType := CompressionTypePB.noCompression,
                    uncompressedSize := uncompressed_size }

/-! ## Range-partitioned send (`find_partition`, `send`, lines 648-899) -/

/-- Model of `DataStreamSender::binary_find_partition` (lines 806-824):
classic binary search driven by `compare_key`; `cmp mid` stands for
`_partition_infos[mid]->range().compare_key(key)`.  Returns the found
index or `-1`. -/
def binaryFindPartitionAux (cmp : ℤ → ℤ) (low high : ℤ) : ℤ :=
  if h : low ≤ high then
    let mid := low + (high - low) / 2
    if cmp mid = 0 then mid
    else if cmp mid < 0 then binaryFindPartitionAux cmp (mid + 1) high
    else binaryFindPartitionAux cmp low (mid - 1)
  else -1
termination_by (high + 1 - low).toNat
decreasing_by
  · omega
  · omega

inductive FindPartitionResult where
  | found : ℕ → FindPartitionResult
  | ignored : FindPartitionResult
  | failed : FindPartitionResult
deriving DecidableEq, Repr

/-- Model of `DataStreamSender::find_partition` (lines 826-864) in the
non-degenerate case of a non-empty `_partition_expr_ctxs`: the row's
first partition value turns into a comparison function `cmp` against
each partition range; a miss is either ignored (when
`_ignore_not_found`) or an internal error. -/
def find_partition (ignore_not_found : Bool) (num_parts : ℕ) (cmp : ℤ → ℤ) :
    FindPartitionResult :=
  let part_index := binaryFindPartitionAux cmp 0 ((num_parts : ℤ) - 1)
  if part_index < 0 then
    if ignore_not_found then FindPartitionResult.ignored else FindPartitionResult.failed
  else FindPartitionResult.found part_index.toNat

/-- Whether a row (represented by its comparison function) matches no
partition range. -/
def noPartition (num_parts : ℕ) (cmp : ℤ → ℤ) : Bool :=
  binaryFindPartitionAux cmp 0 ((num_parts : ℤ) - 1) < 0

/-- Model of the `RANGE_PARTITIONED` branch of `DataStreamSender::send`
(lines 684-700): per row, `compute_range_part_code` either yields a
partition (the row is added to a channel, flag `true`), sets the ignore
flag (the row is skipped and counted), or fails the whole send with an
internal error.  On success the per-row dispatch flags and the value
added to the `IgnoreRows` counter are returned. -/
def sendRangeRows (ignore_not_found : Bool) (num_parts : ℕ) :
    List (ℤ → ℤ) → Except Status (List Bool × ℕ)
  | [] => Except.ok ([], 0)
  | cmp :: rest =>
      match find_partition ignore_not_found num_parts cmp with
      | FindPartitionResult.failed => Except.error Status.internalError
      | FindPartitionResult.ignored =>
          match sendRangeRows ignore_not_found num_parts rest with
          | Except.ok (sent, ign) => Except.ok (false :: sent, ign + 1)
          | Except.error e => Except.error e
      | FindPartitionResult.found _ =>
          match sendRangeRows ignore_not_found num_parts rest with
          | Except.ok (sent, ign) => Except.ok (true :: sent, ign)
          | Except.error e => Except.error e

/-! ## Aggregation hash sets (`agg_hash_set.h`) -/

/-- `AggHashSetOfOneNumberKey`: the phmap set is modelled by the list of
its elements. -/
structure AggHashSetOfOneNumberKey (K : Type) where
  hash_set : List K
deriving DecidableEq, Repr

/-- Probe-only `build_set(chunk_size, key_columns, not_founds)` of
`AggHashSetOfOneNumberKey` (lines 94-103): resize `not_founds` and set
entry `i` to `!hash_set.contains(keys[i])`; nothing is inserted. -/
def AggHashSetOfOneNumberKey.build_set_probe {K : Type} [DecidableEq K]
    (s : AggHashSetOfOneNumberKey K) (chunk_size : ℕ) (keys : ℕ → K) :
    AggHashSetOfOneNumberKey K × List ℕ :=
  (s, (List.range chunk_size).map (fun i => if keys i ∈ s.hash_set then 0 else 1))

/-- Slice-set membership as `TEqualOnSliceWithHash` computes it: compare
the stored hash first, then the bytes.  The stored hash of an element
is the hash of its bytes. -/
def sliceSetContains (hashFn : List ℕ → ℕ) (s : List (List ℕ)) (key : List ℕ) : Bool :=
  s.any (fun x => hashFn x == hashFn key && x == key)

/-- `AggHashSetOfOneStringKey`, the set as the list of stored slices. -/
structure AggHashSetOfOneStringKey where
  hash_set : List (List ℕ)
deriving DecidableEq, Repr

/-- Probe-only `build_set` of `AggHashSetOfOneStringKey`
(lines 217-226). -/
def AggHashSetOfOneStringKey.build_set_probe (hashFn : List ℕ → ℕ)
    (s : AggHashSetOfOneStringKey) (chunk_size : ℕ) (getSlice : ℕ → List ℕ) :
    AggHashSetOfOneStringKey × List ℕ :=
  (s, (List.range chunk_size).map (fun i =>
    if sliceSetContains hashFn s.hash_set (getSlice i) then 0 else 1))

/-- `AggHashSetOfSerializedKey`. -/
structure AggHashSetOfSerializedKey where
  hash_set : List (List ℕ)
deriving DecidableEq, Repr

/-- Row serialization performed by the `serialize_batch` calls: each key
column appends its serialization of row `i`, so the row key is the
concatenation over the columns. -/
def serializeRow (key_columns : List (ℕ → List ℕ)) (i : ℕ) : List ℕ :=
  (key_columns.map (fun col => col i)).flatten

/-- Probe-only `build_set` of `AggHashSetOfSerializedKey`
(lines 372-391): serialize every row, then set `not_founds[i]` to
`!hash_set.contains(serialized_row_i)`. -/
def AggHashSetOfSerializedKey.build_set_probe (hashFn : List ℕ → ℕ)
    (s : AggHashSetOfSerializedKey) (chunk_size : ℕ) (key_columns : List (ℕ → List ℕ)) :
    AggHashSetOfSerializedKey × List ℕ :=
  (s, (List.range chunk_size).map (fun i =>
    if sliceSetContains hashFn s.hash_set (serializeRow key_columns i) then 0 else 1))

/-- `AggHashSetOfOneNullableNumberKey`: the set plus the separate
`has_null_key` bit. -/
structure AggHashSetOfOneNullableNumberKey (K : Type) where
  hash_set : List K
  has_null_key : Bool
deriving DecidableEq, Repr

/-- Probe-only `build_set` of `AggHashSetOfOneNullableNumberKey`
(lines 151-175): `not_founds` starts all zero; an only-null column just
sets `has_null_key`; otherwise, when the column has nulls, null rows
set `has_null_key` and keep their `not_founds` entry at 0 while
non-null rows are probed; a null-free column probes every row. -/
def AggHashSetOfOneNullableNumberKey.build_set_probe {K : Type} [DecidableEq K]
    (s : AggHashSetOfOneNullableNumberKey K) (chunk_size : ℕ) (only_null : Bool)
    (is_null : ℕ → Bool) (data : ℕ → K) :
    AggHashSetOfOneNullableNumberKey K × List ℕ :=
  if only_null then
    ({ s with has_null_key := true }, List.replicate chunk_size 0)
  else if (List.range chunk_size).any is_null then
    ({ s with has_null_key := true },
      (List.range chunk_size).map (fun i =>
        if is_null i then 0 else if data i ∈ s.hash_set then 0 else 1))
  else
    (s, (List.range chunk_size).map (fun i => if data i ∈ s.hash_set then 0 else 1))

/-- `AggHashSetOfOneNullableStringKey`. -/
structure AggHashSetOfOneNullableStringKey where
  hash_set : List (List ℕ)
  has_null_key : Bool
deriving DecidableEq, Repr

/-- Probe-only `build_set` of `AggHashSetOfOneNullableStringKey`
(lines 272-295), with `_handle_data_key_column(data_column, row,
not_founds)` inlined. -/
def AggHashSetOfOneNullableStringKey.build_set_probe (hashFn : List ℕ → ℕ)
    (s : AggHashSetOfOneNullableStringKey) (chunk_size : ℕ) (only_null : Bool)
    (is_null : ℕ → Bool) (getSlice : ℕ → List ℕ) :
    AggHashSetOfOneNullableStringKey × List ℕ :=
  if only_null then
    ({ s with has_null_key := true }, List.replicate chunk_size 0)
  else if (List.range chunk_size).any is_null then
    ({ s with has_null_key := true },
      (List.range chunk_size).map (fun i =>
        if is_null i then 0
        else if sliceSetContains hashFn s.hash_set (getSlice i) then 0 else 1))
  else
    (s, (List.range chunk_size).map (fun i =>
      if sliceSetContains hashFn s.hash_set (getSlice i) then 0 else 1))

/-! ## Helper lemmas -/

theorem getD_map_range {β : Type} (f : ℕ → β) (d : β) (n i : ℕ) (h : i < n) :
    ((List.range n).map f).getD i d = f i := by
  simp [List.getD_eq_getElem?_getD, List.getElem?_range, h]

theorem getD_replicate_self {β : Type} (a : β) : ∀ n i, (List.replicate n a).getD i a = a := by
  intro n
  induction n with
  | zero => intro i; rfl
  | succ n ih =>
      intro i
      cases i with
      | zero => rfl
      | succ j => exact ih j

theorem sliceSetContains_iff_mem (hashFn : List ℕ → ℕ) (s : List (List ℕ)) (k : List ℕ) :
    sliceSetContains hashFn s k = true ↔ k ∈ s := by
  simp only [sliceSetContains, List.any_eq_true, Bool.and_eq_true, beq_iff_eq]
  constructor
  · rintro ⟨x, hx, -, rfl⟩
    exact hx
  · intro hk
    exact ⟨k, hk, rfl, rfl⟩

theorem hashJoinOpen_pushed_down_eq {α : Type} (cfg : HashJoinNodeConfig) (table_size : ℕ)
    (probe_batches : List (List α)) :
    (hashJoinOpen cfg table_size probe_batches).pushed_down =
      ((if cfg.child0_is_exchange && cfg.child1_is_exchange then false else cfg.is_push_down) &&
        !(cfg.is_null_safe_eq_join.any (fun b => b)) && !cfg.has_vectorized_scan_child &&
        !(decide (table_size = 0 ∧ cfg.join_op = TJoinOp.innerJoin)) &&
        (!(decide (1024 < table_size)) || decide (cfg.build_child_conjuncts ≠ 0))) := by
  unfold hashJoinOpen
  by_cases h1 : cfg.is_null_safe_eq_join.any (fun b => b) <;>
    by_cases h2 : cfg.has_vectorized_scan_child <;>
      by_cases h3 : cfg.child0_is_exchange && cfg.child1_is_exchange <;>
        by_cases h4 : cfg.is_push_down <;>
          by_cases h5 : table_size = 0 ∧ cfg.join_op = TJoinOp.innerJoin <;>
            by_cases h6 : 1024 < table_size <;>
              simp [h1, h2, h3, h4, h5, h6]

/-! ## C1: runtime-filter pushdown gating in `HashJoinNode::open` -/

/-- C1 (amended): `push_down_predicate` is reached only when
`is_push_down` was requested, no equi-join key is null-safe, the two
children are not both exchange nodes, no vectorized scan child is
present, and either the hash table holds at most 1024 rows or the
build child carries at least one conjunct; conversely, with more than
1024 rows and a conjunct-free build child nothing is pushed down. -/
theorem hash_join_push_down_gate {α : Type} (cfg : HashJoinNodeConfig) (table_size : ℕ)
    (probe_batches : List (List α)) :
    ((hashJoinOpen cfg table_size probe_batches).pushed_down = true →
      cfg.is_push_down = true ∧
      cfg.is_null_safe_eq_join.any (fun b => b) = false ∧
      (cfg.child0_is_exchange && cfg.child1_is_exchange) = false ∧
      cfg.has_vectorized_scan_child = false ∧
      (table_size ≤ 1024 ∨ cfg.build_child_conjuncts ≠ 0)) ∧
    (1024 < table_size → cfg.build_child_conjuncts = 0 →
      (hashJoinOpen cfg table_size probe_batches).pushed_down = false) := by
  constructor
  · intro hp
    rw [hashJoinOpen_pushed_down_eq] at hp
    simp only [Bool.and_eq_true, Bool.or_eq_true, Bool.not_eq_true', decide_eq_true_eq,
      decide_eq_false_iff_not, Bool.not_eq_true] at hp
    obtain ⟨⟨⟨⟨hpd, hns⟩, hvec⟩, -⟩, hthr⟩ := hp
    have hif : cfg.is_push_down = true ∧
        (cfg.child0_is_exchange && cfg.child1_is_exchange) = false := by
      by_cases hex : cfg.child0_is_exchange = true ∧ cfg.child1_is_exchange = true
      · rw [if_pos hex] at hpd
        exact absurd hpd (by simp)
      · rw [if_neg hex] at hpd
        refine ⟨hpd, ?_⟩
        cases h0 : cfg.child0_is_exchange <;> cases h1 : cfg.child1_is_exchange <;> simp_all
    refine ⟨hif.1, hns, hif.2, hvec, ?_⟩
    rcases hthr with h | h
    · left
      omega
    · right
      exact h
  · intro h1 h2
    rw [hashJoinOpen_pushed_down_eq]
    simp [h1, h2, Nat.not_le.mpr h1]

/-- C1 counterexample: with pushdown requested, no null-safe key,
non-exchange children, no vectorized scan child, a build child carrying
one conjunct and a hash table of 1025 rows, `HashJoinNode::open` still
synthesizes and pushes the IN-predicates, contradicting the claim that
a table larger than 1024 rows disables pushdown. -/
theorem hash_join_push_down_counterexample :
    (hashJoinOpen (α := ℕ)
      { join_op := TJoinOp.innerJoin, is_push_down := true, is_null_safe_eq_join := [false],
        child0_is_exchange := false, child1_is_exchange := false,
        has_vectorized_scan_child := false, build_child_conjuncts := 1 }
      1025 [[0]]).pushed_down = true ∧ 1024 < 1025 := by
  constructor
  · rfl
  · decide

/-- C1 witness: a pushdown that does happen satisfies all the amended
gate conditions. -/
theorem hash_join_push_down_gate_witness :
    ({ join_op := TJoinOp.leftOuterJoin, is_push_down := true, is_null_safe_eq_join := [false],
       child0_is_exchange := false, child1_is_exchange := false,
       has_vectorized_scan_child := false,
       build_child_conjuncts := 0 } : HashJoinNodeConfig).is_push_down = true ∧
    (1000 ≤ 1024 ∨
      ({ join_op := TJoinOp.leftOuterJoin, is_push_down := true, is_null_safe_eq_join := [false],
         child0_is_exchange := false, child1_is_exchange := false,
         has_vectorized_scan_child := false,
         build_child_conjuncts := 0 } : HashJoinNodeConfig).build_child_conjuncts ≠ 0) := by
  have h := (hash_join_push_down_gate (α := ℕ)
    { join_op := TJoinOp.leftOuterJoin, is_push_down := true, is_null_safe_eq_join := [false],
      child0_is_exchange := false, child1_is_exchange := false,
      has_vectorized_scan_child := false, build_child_conjuncts := 0 }
    1000 [[3]]).1 (by rfl)
  exact ⟨h.1, h.2.2.2.2⟩

/-! ## C2: empty-build inner-join short circuit in `open` -/

/-- C2 (amended): when the pushdown path is still enabled when `open`
reaches the build result (pushdown requested, no null-safe key, not
both children exchange nodes, no vectorized scan child) and the build
side of an inner join produced zero rows, `open` returns with `_eos`
already set and without a single `get_next` call on the probe child,
and the first `get_next` afterwards reports EOS with no rows. -/
theorem hash_join_open_empty_build_inner_short_circuit {α : Type} (cfg : HashJoinNodeConfig)
    (probe_batches : List (List α))
    (hop : cfg.join_op = TJoinOp.innerJoin)
    (hpd : cfg.is_push_down = true)
    (hns : cfg.is_null_safe_eq_join.any (fun b => b) = false)
    (hex : (cfg.child0_is_exchange && cfg.child1_is_exchange) = false)
    (hvec : cfg.has_vectorized_scan_child = false) :
    (hashJoinOpen cfg 0 probe_batches).eos = true ∧
    (hashJoinOpen cfg 0 probe_batches).probe_get_next_calls = 0 ∧
    ∀ left_join_get_next general_path : Unit → List α × Bool,
      hashJoinGetNext cfg.join_op (hashJoinOpen cfg 0 probe_batches).eos
        left_join_get_next general_path = ([], true) := by
  have hopen : hashJoinOpen cfg 0 probe_batches =
      { is_push_down_final := true, pushed_down := false, eos := true,
        probe_get_next_calls := 0 } := by
    unfold hashJoinOpen
    rw [hex, hns, hvec, hpd]
    simp [hop]
  refine ⟨by rw [hopen], by rw [hopen], ?_⟩
  intro lj gp
  rw [hopen, hop]
  rfl

/-- C2 counterexample: an inner join with an empty build side but with
pushdown not requested does not short-circuit: `open` leaves `_eos`
clear and reads a probe batch, contradicting the claim for *every*
inner join. -/
theorem hash_join_open_empty_build_counterexample :
    (hashJoinOpen (α := ℕ)
      { join_op := TJoinOp.innerJoin, is_push_down := false, is_null_safe_eq_join := [false],
        child0_is_exchange := false, child1_is_exchange := false,
        has_vectorized_scan_child := false, build_child_conjuncts := 0 }
      0 [[7]]).eos = false ∧
    (hashJoinOpen (α := ℕ)
      { join_op := TJoinOp.innerJoin, is_push_down := false, is_null_safe_eq_join := [false],
        child0_is_exchange := false, child1_is_exchange := false,
        has_vectorized_scan_child := false, build_child_conjuncts := 0 }
      0 [[7]]).probe_get_next_calls = 1 := by
  decide

/-- C2 witness: the short circuit at a concrete configuration. -/
theorem hash_join_open_empty_build_witness :
    (hashJoinOpen (α := ℕ)
      { join_op := TJoinOp.innerJoin, is_push_down := true, is_null_safe_eq_join := [false],
        child0_is_exchange := false, child1_is_exchange := false,
        has_vectorized_scan_child := false, build_child_conjuncts := 0 }
      0 [[7]]).eos = true ∧
    (hashJoinOpen (α := ℕ)
      { join_op := TJoinOp.innerJoin, is_push_down := true, is_null_safe_eq_join := [false],
        child0_is_exchange := false, child1_is_exchange := false,
        has_vectorized_scan_child := false, build_child_conjuncts := 0 }
      0 [[7]]).probe_get_next_calls = 0 := by
  have h := hash_join_open_empty_build_inner_short_circuit (α := ℕ)
    { join_op := TJoinOp.innerJoin, is_push_down := true, is_null_safe_eq_join := [false],
      child0_is_exchange := false, child1_is_exchange := false,
      has_vectorized_scan_child := false, build_child_conjuncts := 0 }
    [[7]] (by rfl) (by rfl) (by rfl) (by rfl) (by rfl)
  exact ⟨h.1, h.2.1⟩

/-! ## C6: compression threshold in `serialize_chunk` -/

/-- C6: a successfully serialized chunk carries a compressed payload
(`compress_type` set to the configured codec) only when the ratio of
uncompressed to compressed size exceeds the configured threshold; when
the ratio does not exceed it, the payload is the uncompressed
serialization and `compress_type` stays `NO_COMPRESSION`. -/
theorem serialize_chunk_compress_threshold_spec
    (c : BlockCompressionCodec) (compress_type : CompressionTypePB) (threshold : ℚ)
    (serialized : List ℕ) (pb : ChunkPB)
    (hok : serialize_chunk (some c) compress_type threshold serialized = Except.ok pb) :
    (pb.compressType ≠ CompressionTypePB.noCompression →
      threshold < (serialized.length : ℚ) / ((c.compress serialized).length : ℚ) ∧
      pb.compressType = compress_type) ∧
    ((serialized.length : ℚ) / ((c.compress serialized).length : ℚ) ≤ threshold →
      pb.data = serialized ∧ pb.compressType = CompressionTypePB.noCompression) := by
  simp only [serialize_chunk] at hok
  split_ifs at hok with hmax hpos hthr
  · injection hok with h
    subst h
    exact ⟨fun _ => ⟨hthr, rfl⟩, fun hle => absurd hthr (not_lt.mpr hle)⟩
  · injection hok with h
    subst h
    exact ⟨fun hne => absurd rfl hne, fun _ => ⟨rfl, rfl⟩⟩
  · injection hok with h
    subst h
    exact ⟨fun hne => absurd rfl hne, fun _ => ⟨rfl, rfl⟩⟩

/-- C6 witness: a chunk of 4 bytes that compresses to 1 byte is left
uncompressed under threshold 10. -/
theorem serialize_chunk_compress_threshold_witness :
    ∃ pb : ChunkPB,
      serialize_chunk (some ⟨fun _ => [0], 10⟩) CompressionTypePB.lz4 10 [1, 2, 3, 4] =
        Except.ok pb ∧
      pb.data = [1, 2, 3, 4] ∧ pb.compressType = CompressionTypePB.noCompression := by
  have hok : serialize_chunk (some ⟨fun _ => [0], 10⟩) CompressionTypePB.lz4 10 [1, 2, 3, 4] =
      Except.ok { data := [1, 2, 3, 4], compressType := CompressionTypePB.noCompression,
                  uncompressedSize := 4 } := by
    unfold serialize_chunk
    norm_num
  have h := (serialize_chunk_compress_threshold_spec _ _ _ _ _ hok).2 (by norm_num)
  exact ⟨_, hok, h.1, h.2⟩

/-! ## C9: probe-only `build_set` of the non-nullable hash-set variants -/

/-- C9: for the one-number, one-string and serialized aggregation hash
sets, the probe-only `build_set(chunk_size, key_columns, not_founds)`
leaves the set unchanged, and `not_founds[i] = 1` exactly when the key
of row `i` is absent from the set. -/
theorem agg_hash_set_probe_build_set_spec {K : Type} [DecidableEq K]
    (s1 : AggHashSetOfOneNumberKey K) (nkeys : ℕ → K)
    (hashFn : List ℕ → ℕ) (s2 : AggHashSetOfOneStringKey) (getSlice : ℕ → List ℕ)
    (s3 : AggHashSetOfSerializedKey) (key_columns : List (ℕ → List ℕ)) (chunk_size : ℕ) :
    ((s1.build_set_probe chunk_size nkeys).1 = s1 ∧
      ∀ i, i < chunk_size →
        ((s1.build_set_probe chunk_size nkeys).2.getD i 0 = 1 ↔ nkeys i ∉ s1.hash_set)) ∧
    ((AggHashSetOfOneStringKey.build_set_probe hashFn s2 chunk_size getSlice).1 = s2 ∧
      ∀ i, i < chunk_size →
        ((AggHashSetOfOneStringKey.build_set_probe hashFn s2 chunk_size getSlice).2.getD i 0 = 1 ↔
          getSlice i ∉ s2.hash_set)) ∧
    ((AggHashSetOfSerializedKey.build_set_probe hashFn s3 chunk_size key_columns).1 = s3 ∧
      ∀ i, i < chunk_size →
        ((AggHashSetOfSerializedKey.build_set_probe hashFn s3 chunk_size
            key_columns).2.getD i 0 = 1 ↔
          serializeRow key_columns i ∉ s3.hash_set)) := by
  refine ⟨⟨rfl, fun i hi => ?_⟩, ⟨rfl, fun i hi => ?_⟩, ⟨rfl, fun i hi => ?_⟩⟩
  · rw [AggHashSetOfOneNumberKey.build_set_probe, getD_map_range _ _ _ _ hi]
    by_cases h : nkeys i ∈ s1.hash_set <;> simp [h]
  · rw [AggHashSetOfOneStringKey.build_set_probe, getD_map_range _ _ _ _ hi]
    by_cases h : getSlice i ∈ s2.hash_set <;>
      simp [h, sliceSetContains_iff_mem]
  · rw [AggHashSetOfSerializedKey.build_set_probe, getD_map_range _ _ _ _ hi]
    by_cases h : serializeRow key_columns i ∈ s3.hash_set <;>
      simp [h, sliceSetContains_iff_mem]

/-- C9 witness: a concrete probe of the one-number variant reports the
absent key 4 and leaves the set unchanged. -/
theorem agg_hash_set_probe_build_set_witness :
    ((⟨[5]⟩ : AggHashSetOfOneNumberKey ℕ).build_set_probe 2 (fun i => i + 4)).2.getD 0 0 = 1 ∧
    ((⟨[5]⟩ : AggHashSetOfOneNumberKey ℕ).build_set_probe 2 (fun i => i + 4)).1 = ⟨[5]⟩ := by
  have h := (agg_hash_set_probe_build_set_spec (⟨[5]⟩ : AggHashSetOfOneNumberKey ℕ)
    (fun i => i + 4) List.length ⟨[[2, 2]]⟩ (fun _ => [2, 2]) ⟨[]⟩ [] 2).1
  exact ⟨(h.2 0 (by decide)).mpr (by decide), h.1⟩

/-! ## C10: probe-only `build_set` of the nullable hash-set variants -/

/-- C10: the nullable number and string probe-only `build_set` variants
keep the hash-set contents unchanged but are not fully read-only: an
only-null column or any null row sets `has_null_key`, and every null
row leaves its `not_founds` entry at 0, so a null key is never reported
absent. -/
theorem agg_hash_set_nullable_probe_spec {K : Type} [DecidableEq K]
    (s1 : AggHashSetOfOneNullableNumberKey K) (data : ℕ → K)
    (hashFn : List ℕ → ℕ) (s2 : AggHashSetOfOneNullableStringKey) (getSlice : ℕ → List ℕ)
    (chunk_size : ℕ) (only_null : Bool) (is_null : ℕ → Bool) :
    ((s1.build_set_probe chunk_size only_null is_null data).1.hash_set = s1.hash_set ∧
      ((only_null = true ∨ ∃ i, i < chunk_size ∧ is_null i = true) →
        (s1.build_set_probe chunk_size only_null is_null data).1.has_null_key = true) ∧
      (∀ i, i < chunk_size → is_null i = true →
        (s1.build_set_probe chunk_size only_null is_null data).2.getD i 0 = 0)) ∧
    ((AggHashSetOfOneNullableStringKey.build_set_probe hashFn s2 chunk_size only_null is_null
        getSlice).1.hash_set = s2.hash_set ∧
      ((only_null = true ∨ ∃ i, i < chunk_size ∧ is_null i = true) →
        (AggHashSetOfOneNullableStringKey.build_set_probe hashFn s2 chunk_size only_null is_null
          getSlice).1.has_null_key = true) ∧
      (∀ i, i < chunk_size → is_null i = true →
        (AggHashSetOfOneNullableStringKey.build_set_probe hashFn s2 chunk_size only_null is_null
          getSlice).2.getD i 0 = 0)) := by
  have hany : (∃ i, i < chunk_size ∧ is_null i = true) →
      (List.range chunk_size).any is_null = true := by
    rintro ⟨i, hi, hn⟩
    simp only [List.any_eq_true, List.mem_range]
    exact ⟨i, hi, hn⟩
  constructor
  · unfold AggHashSetOfOneNullableNumberKey.build_set_probe
    cases only_null with
    | true =>
        refine ⟨by simp, by simp, fun i hi _ => ?_⟩
        simp [getD_replicate_self]
    | false =>
        by_cases ha : (List.range chunk_size).any is_null = true
        · refine ⟨by simp [ha], fun _ => by simp [ha], fun i hi hn => ?_⟩
          simp only [Bool.false_eq_true, if_false, ha, if_true]
          rw [getD_map_range _ _ _ _ hi, if_pos hn]
        · refine ⟨by simp [ha], fun hcase => ?_, fun i hi hn => ?_⟩
          · rcases hcase with h | h
            · exact absurd h (by simp)
            · exact absurd (hany h) ha
          · exact absurd (hany ⟨i, hi, hn⟩) ha
  · unfold AggHashSetOfOneNullableStringKey.build_set_probe
    cases only_null with
    | true =>
        refine ⟨by simp, by simp, fun i hi _ => ?_⟩
        simp [getD_replicate_self]
    | false =>
        by_cases ha : (List.range chunk_size).any is_null = true
        · refine ⟨by simp [ha], fun _ => by simp [ha], fun i hi hn => ?_⟩
          simp only [Bool.false_eq_true, if_false, ha, if_true]
          rw [getD_map_range _ _ _ _ hi, if_pos hn]
        · refine ⟨by simp [ha], fun hcase => ?_, fun i hi hn => ?_⟩
          · rcases hcase with h | h
            · exact absurd h (by simp)
            · exact absurd (hany h) ha
          · exact absurd (hany ⟨i, hi, hn⟩) ha

/-- C10 witness: a nullable number column with a null in row 0 sets
`has_null_key` and leaves `not_founds[0]` at 0. -/
theorem agg_hash_set_nullable_probe_witness :
    ((⟨[3], false⟩ : AggHashSetOfOneNullableNumberKey ℕ).build_set_probe 2 false
      (fun i => i == 0) (fun _ => 9)).1.has_null_key = true ∧
    ((⟨[3], false⟩ : AggHashSetOfOneNullableNumberKey ℕ).build_set_probe 2 false
      (fun i => i == 0) (fun _ => 9)).2.getD 0 0 = 0 := by
  have h := (agg_hash_set_nullable_probe_spec (⟨[3], false⟩ : AggHashSetOfOneNullableNumberKey ℕ)
    (fun _ => 9) List.length ⟨[], false⟩ (fun _ => []) 2 false (fun i => i == 0)).1
  exact ⟨h.2.1 (Or.inr ⟨0, by decide, by decide⟩), h.2.2 0 (by decide) (by decide)⟩

/-! ## C8: RANGE_PARTITIONED rows that match no partition -/

theorem sendRangeRows_ignore_ok (num_parts : ℕ) :
    ∀ rows : List (ℤ → ℤ),
      sendRangeRows true num_parts rows =
        Except.ok (rows.map (fun cmp => !noPartition num_parts cmp),
          (rows.filter (fun cmp => noPartition num_parts cmp)).length)
  | [] => rfl
  | cmp :: rest => by
      have ih := sendRangeRows_ignore_ok num_parts rest
      by_cases h : noPartition num_parts cmp = true
      · have hfp : find_partition true num_parts cmp = FindPartitionResult.ignored := by
          unfold find_partition
          rw [if_pos (by simpa [noPartition] using h)]
          rfl
        simp [sendRangeRows, hfp, ih, h]
      · have hfp : find_partition true num_parts cmp =
            FindPartitionResult.found
              (binaryFindPartitionAux cmp 0 ((num_parts : ℤ) - 1)).toNat := by
          unfold find_partition
          rw [if_neg (by simpa [noPartition] using h)]
        simp [sendRangeRows, hfp, ih, h]

theorem sendRangeRows_error_of_noPartition (num_parts : ℕ) :
    ∀ rows : List (ℤ → ℤ), (∃ cmp ∈ rows, noPartition num_parts cmp = true) →
      sendRangeRows false num_parts rows = Except.error Status.internalError
  | [], h => absurd h (by simp)
  | cmp :: rest, h => by
      by_cases hh : noPartition num_parts cmp = true
      · have hfp : find_partition false num_parts cmp = FindPartitionResult.failed := by
          unfold find_partition
          rw [if_pos (by simpa [noPartition] using hh)]
          rfl
        simp [sendRangeRows, hfp]
      · have hex : ∃ c ∈ rest, noPartition num_parts c = true := by
          rcases h with ⟨c, hc, hcp⟩
          rcases List.mem_cons.mp hc with rfl | hc'
          · exact absurd hcp hh
          · exact ⟨c, hc', hcp⟩
        have ih := sendRangeRows_error_of_noPartition num_parts rest hex
        have hfp : find_partition false num_parts cmp =
            FindPartitionResult.found
              (binaryFindPartitionAux cmp 0 ((num_parts : ℤ) - 1)).toNat := by
          unfold find_partition
          rw [if_neg (by simpa [noPartition] using hh)]
        simp [sendRangeRows, hfp, ih]

/-- C8: under `RANGE_PARTITIONED` send, with `ignore_not_found` true the
rows matching no partition are skipped (dispatch flag `false`), the
`IgnoreRows` counter receives exactly their number and the send returns
OK; with `ignore_not_found` false, the presence of any row matching no
partition makes the send return `InternalError` rather than dropping
the row. -/
theorem range_partition_ignore_not_found_spec (num_parts : ℕ) (rows : List (ℤ → ℤ)) :
    (sendRangeRows true num_parts rows =
      Except.ok (rows.map (fun cmp => !noPartition num_parts cmp),
        (rows.filter (fun cmp => noPartition num_parts cmp)).length)) ∧
    ((∃ cmp ∈ rows, noPartition num_parts cmp = true) →
      sendRangeRows false num_parts rows = Except.error Status.internalError) :=
  ⟨sendRangeRows_ignore_ok num_parts rows, sendRangeRows_error_of_noPartition num_parts rows⟩

/-- C8 witness: one row whose key is above every partition range is
counted and skipped under `ignore_not_found`, and fails the send
otherwise. -/
theorem range_partition_ignore_not_found_witness :
    sendRangeRows true 1 [fun _ => 1] = Except.ok ([false], 1) ∧
    sendRangeRows false 1 [fun _ => 1] = Except.error Status.internalError := by
  have hnp : noPartition 1 (fun _ => (1 : ℤ)) = true := by
    rw [noPartition, binaryFindPartitionAux]
    norm_num
    rw [binaryFindPartitionAux]
    norm_num
  have h := range_partition_ignore_not_found_spec 1 [fun _ => 1]
  constructor
  · rw [h.1]
    simp [hnp]
  · exact h.2 ⟨fun _ => 1, by simp, hnp⟩

/-! ## C4: at most one in-flight RPC per channel -/

theorem send_one_chunk_inv (rpc_status : ℕ → Status) (threshold : ℕ) (input : SendChunkInput)
    (st : ChannelRpcState) (h : ChannelInv st) :
    ChannelInv (send_one_chunk rpc_status threshold input st).2 := by
  obtain ⟨cb, eos⟩ := input
  obtain ⟨hlen, hseq⟩ := h
  cases cb with
  | none =>
      unfold send_one_chunk
      by_cases hc : threshold < st.current_request_bytes ∨ eos = true
      · rw [if_pos hc]
        unfold wait_prev_request
        by_cases h0 : st.request_seq = 0
        · rw [if_pos h0]
          have hout : st.outstanding = [] := by
            cases hst : st.outstanding with
            | nil => rfl
            | cons n rest =>
                have := hseq n (by rw [hst]; exact List.mem_cons_self n rest)
                omega
          refine ⟨by simp [do_send_chunk_rpc, hout], ?_⟩
          intro n hn
          simp [do_send_chunk_rpc, hout] at hn
          simp [do_send_chunk_rpc, hn]
        · rw [if_neg h0]
          cases hr : rpc_status (st.request_seq - 1) with
          | ok =>
              refine ⟨by simp [do_send_chunk_rpc], ?_⟩
              intro n hn
              simp [do_send_chunk_rpc] at hn
              simp [do_send_chunk_rpc, hn]
          | internalError => exact ⟨by simp, by simp⟩
          | thriftRpcError => exact ⟨by simp, by simp⟩
      · rw [if_neg hc]
        exact ⟨hlen, hseq⟩
  | some b =>
      unfold send_one_chunk
      by_cases hc : threshold < st.current_request_bytes + b ∨ eos = true
      · rw [if_pos (by simpa using hc)]
        unfold wait_prev_request
        by_cases h0 : st.request_seq = 0
        · rw [if_pos h0]
          have hout : st.outstanding = [] := by
            cases hst : st.outstanding with
            | nil => rfl
            | cons n rest =>
                have := hseq n (by rw [hst]; exact List.mem_cons_self n rest)
                omega
          refine ⟨by simp [do_send_chunk_rpc, hout], ?_⟩
          intro n hn
          simp [do_send_chunk_rpc, hout] at hn
          simp [do_send_chunk_rpc, hn]
        · rw [if_neg h0]
          cases hr : rpc_status (st.request_seq - 1) with
          | ok =>
              refine ⟨by simp [do_send_chunk_rpc], ?_⟩
              intro n hn
              simp [do_send_chunk_rpc] at hn
              simp [do_send_chunk_rpc, hn]
          | internalError => exact ⟨by simp, by simp⟩
          | thriftRpcError => exact ⟨by simp, by simp⟩
      · rw [if_neg (by simpa using hc)]
        exact ⟨hlen, hseq⟩

theorem sendOneChunkTrace_inv (rpc_status : ℕ → Status) (threshold : ℕ) :
    ∀ (trace : List SendChunkInput) (st : ChannelRpcState), ChannelInv st →
      ChannelInv (sendOneChunkTrace rpc_status threshold trace st)
  | [], _, h => h
  | i :: rest, st, h =>
      sendOneChunkTrace_inv rpc_status threshold rest _
        (send_one_chunk_inv rpc_status threshold i st h)

theorem send_one_chunk_issue_requires_ok (rpc_status : ℕ → Status) (threshold : ℕ)
    (input : SendChunkInput) (st : ChannelRpcState)
    (hne : (send_one_chunk rpc_status threshold input st).2.issued ≠ st.issued) :
    st.request_seq = 0 ∨ rpc_status (st.request_seq - 1) = Status.ok := by
  obtain ⟨cb, eos⟩ := input
  by_cases h0 : st.request_seq = 0
  · exact Or.inl h0
  · right
    cases hr : rpc_status (st.request_seq - 1) with
    | ok => rfl
    | internalError =>
        exfalso
        apply hne
        cases cb <;>
          (simp only [send_one_chunk]
           split_ifs <;> simp [wait_prev_request, h0, hr])
    | thriftRpcError =>
        exfalso
        apply hne
        cases cb <;>
          (simp only [send_one_chunk]
           split_ifs <;> simp [wait_prev_request, h0, hr])

theorem send_one_chunk_frozen_after_error (rpc_status : ℕ → Status) (threshold : ℕ)
    (st : ChannelRpcState) (h0 : st.request_seq ≠ 0)
    (herr : rpc_status (st.request_seq - 1) ≠ Status.ok) (input : SendChunkInput) :
    (send_one_chunk rpc_status threshold input st).2.issued = st.issued ∧
    (send_one_chunk rpc_status threshold input st).2.request_seq = st.request_seq := by
  obtain ⟨cb, eos⟩ := input
  cases hr : rpc_status (st.request_seq - 1) with
  | ok => exact absurd hr herr
  | internalError =>
      cases cb <;>
        (simp only [send_one_chunk]
         split_ifs <;> simp [wait_prev_request, h0, hr])
  | thriftRpcError =>
      cases cb <;>
        (simp only [send_one_chunk]
         split_ifs <;> simp [wait_prev_request, h0, hr])

theorem sendOneChunkTrace_frozen_after_error (rpc_status : ℕ → Status) (threshold : ℕ) :
    ∀ (trace : List SendChunkInput) (st : ChannelRpcState), st.request_seq ≠ 0 →
      rpc_status (st.request_seq - 1) ≠ Status.ok →
      (sendOneChunkTrace rpc_status threshold trace st).issued = st.issued
  | [], _, _, _ => rfl
  | i :: rest, st, h0, herr => by
      have hstep := send_one_chunk_frozen_after_error rpc_status threshold st h0 herr i
      have hrec := sendOneChunkTrace_frozen_after_error rpc_status threshold rest
        (send_one_chunk rpc_status threshold i st).2
        (by rw [hstep.2]; exact h0) (by rw [hstep.2]; exact herr)
      calc (sendOneChunkTrace rpc_status threshold (i :: rest) st).issued
          = (send_one_chunk rpc_status threshold i st).2.issued := hrec
        _ = st.issued := hstep.1

/-- C4: per exchange channel, a new transmit RPC is issued only after
the previous one (if any) was joined and reported OK; every state
reachable by `send_one_chunk` calls has at most one outstanding RPC;
when the previous RPC's status is an error, the call propagates that
status and no further RPC is ever issued on the channel. -/
theorem channel_single_inflight_rpc (rpc_status : ℕ → Status) (threshold : ℕ) :
    (∀ trace : List SendChunkInput,
      ChannelInv (sendOneChunkTrace rpc_status threshold trace initChannel)) ∧
    (∀ (input : SendChunkInput) (st : ChannelRpcState),
      (send_one_chunk rpc_status threshold input st).2.issued ≠ st.issued →
      st.request_seq = 0 ∨ rpc_status (st.request_seq - 1) = Status.ok) ∧
    (∀ st : ChannelRpcState, st.request_seq ≠ 0 →
      rpc_status (st.request_seq - 1) ≠ Status.ok →
      ∀ trace : List SendChunkInput,
        (sendOneChunkTrace rpc_status threshold trace st).issued = st.issued) := by
  refine ⟨?_, ?_, ?_⟩
  · intro trace
    apply sendOneChunkTrace_inv rpc_status threshold trace initChannel
    constructor
    · simp [initChannel]
    · intro n hn
      simp [initChannel] at hn
  · intro input st hne
    exact send_one_chunk_issue_requires_ok rpc_status threshold input st hne
  · intro st h0 herr trace
    exact sendOneChunkTrace_frozen_after_error rpc_status threshold trace st h0 herr

/-- C4 witness: with a failing previous RPC, two further calls on a
channel at sequence 1 issue nothing; and a trace from the fresh channel
keeps the invariant. -/
theorem channel_single_inflight_rpc_witness :
    ChannelInv (sendOneChunkTrace (fun _ => Status.thriftRpcError) 0
      [⟨some 5, true⟩] initChannel) ∧
    (sendOneChunkTrace (fun _ => Status.thriftRpcError) 0 [⟨some 5, true⟩, ⟨some 5, true⟩]
      { request_seq := 1, outstanding := [0], issued := [0],
        current_request_bytes := 0 }).issued = [0] := by
  have h := channel_single_inflight_rpc (fun _ => Status.thriftRpcError) 0
  exact ⟨h.1 [⟨some 5, true⟩],
    h.2.2 { request_seq := 1, outstanding := [0], issued := [0], current_request_bytes := 0 }
      (by decide) (by decide) [⟨some 5, true⟩, ⟨some 5, true⟩]⟩

/-! ## C3: right-anti join emits exactly the unmatched build rows -/

theorem probe_ra_row_eq_map {α β : Type} (keyEq other : α → β → Bool) (p : α)
    (rows : List (β × Bool)) :
    probe_ra_row keyEq other p rows =
      rows.map (fun bm => (bm.1, bm.2 || (keyEq p bm.1 && other p bm.1))) := by
  unfold probe_ra_row
  apply List.map_congr_left
  rintro ⟨b, m⟩ -
  cases m <;> cases hk : keyEq p b <;> cases ho : other p b <;> simp [hk, ho]

theorem probe_ra_fold_eq_map {α β : Type} (keyEq other : α → β → Bool) :
    ∀ (probe : List α) (rows : List (β × Bool)),
      probe.foldl (fun rows p => probe_ra_row keyEq other p rows) rows =
        rows.map (fun bm => (bm.1, bm.2 || probe.any (fun p => keyEq p bm.1 && other p bm.1)))
  | [], rows => by simp
  | p :: probe, rows => by
      have ih := probe_ra_fold_eq_map keyEq other probe (probe_ra_row keyEq other p rows)
      rw [List.foldl_cons, ih, probe_ra_row_eq_map, List.map_map]
      apply List.map_congr_left
      rintro ⟨b, m⟩ -
      simp [Bool.or_assoc]

theorem probe_ra_phase_spec {α β : Type} (keyEq other : α → β → Bool) (probe : List α)
    (build : List β) :
    probe_ra_phase keyEq other probe build =
      build.map (fun b => (b, probe.any (fun p => keyEq p b && other p b))) := by
  unfold probe_ra_phase
  rw [probe_ra_fold_eq_map, List.map_map]
  simp

theorem right_anti_emit_remaining_le {β : Type} (conjuncts : β → Bool) :
    ∀ (rows : List (β × Bool)) (cap : ℕ),
      (right_anti_emit conjuncts rows cap).2.length ≤ rows.length
  | rows, 0 => by simp [right_anti_emit]
  | [], _ + 1 => by simp [right_anti_emit]
  | (b, m) :: rest, cap + 1 => by
      cases m with
      | true =>
          have h := right_anti_emit_remaining_le conjuncts rest (cap + 1)
          simp only [right_anti_emit, if_true, List.length_cons]
          omega
      | false =>
          by_cases hc : conjuncts b = true
          · have h := right_anti_emit_remaining_le conjuncts rest cap
            simp only [right_anti_emit, Bool.false_eq_true, if_false, hc, if_true,
              List.length_cons]
            omega
          · have h := right_anti_emit_remaining_le conjuncts rest (cap + 1)
            simp only [right_anti_emit, Bool.false_eq_true, if_false, hc, List.length_cons]
            omega

theorem right_anti_emit_filter_decomp {β : Type} (conjuncts : β → Bool)
    (hconj : ∀ b, conjuncts b = true) :
    ∀ (rows : List (β × Bool)) (cap : ℕ),
      (rows.filter (fun bm => !bm.2)).map Prod.fst =
        (right_anti_emit conjuncts rows cap).1 ++
          ((right_anti_emit conjuncts rows cap).2.filter (fun bm => !bm.2)).map Prod.fst
  | rows, 0 => by simp [right_anti_emit]
  | [], _ + 1 => by simp [right_anti_emit]
  | (b, m) :: rest, cap + 1 => by
      cases m with
      | true =>
          have ih := right_anti_emit_filter_decomp conjuncts hconj rest (cap + 1)
          simpa [right_anti_emit] using ih
      | false =>
          have ih := right_anti_emit_filter_decomp conjuncts hconj rest cap
          have hc := hconj b
          simp only [right_anti_emit, Bool.false_eq_true, if_false, hc, if_true,
            List.filter_cons, Bool.not_false, List.map_cons, List.cons_append]
          rw [ih]

theorem right_anti_emit_progress {β : Type} (conjuncts : β → Bool)
    (hconj : ∀ b, conjuncts b = true) :
    ∀ (rows : List (β × Bool)) (cap : ℕ), 1 ≤ cap → rows ≠ [] →
      (right_anti_emit conjuncts rows cap).2.length < rows.length ∨
        (right_anti_emit conjuncts rows cap).2 = []
  | _, 0, hcap, _ => absurd hcap (by omega)
  | [], _ + 1, _, hne => absurd rfl hne
  | (b, m) :: rest, cap + 1, _, _ => by
      cases m with
      | true =>
          by_cases hrest : rest = []
          · right
            subst hrest
            simp [right_anti_emit]
          · rcases right_anti_emit_progress conjuncts hconj rest (cap + 1) (by omega) hrest with
              h | h
            · left
              simp only [right_anti_emit, if_true, List.length_cons]
              omega
            · right
              simpa [right_anti_emit] using h
      | false =>
          have hc := hconj b
          have hle := right_anti_emit_remaining_le conjuncts rest cap
          left
          simp only [right_anti_emit, Bool.false_eq_true, if_false, hc, if_true,
            List.length_cons]
          omega

theorem right_anti_drain_spec {β : Type} (conjuncts : β → Bool)
    (hconj : ∀ b, conjuncts b = true) :
    ∀ (caps : List ℕ) (rows : List (β × Bool)), (∀ c ∈ caps, 1 ≤ c) →
      rows.length < caps.length →
      right_anti_drain conjuncts caps rows = (rows.filter (fun bm => !bm.2)).map Prod.fst
  | [], _, _, hlen => absurd hlen (by simp)
  | cap :: caps, rows, hcaps, hlen => by
      by_cases hrows : rows = []
      · subst hrows
        cases cap with
        | zero => simp [right_anti_drain, right_anti_emit]
        | succ c => simp [right_anti_drain, right_anti_emit]
      · have hcap : 1 ≤ cap := hcaps cap (List.mem_cons_self _ _)
        have hB := right_anti_emit_filter_decomp conjuncts hconj rows cap
        by_cases hrem : (right_anti_emit conjuncts rows cap).2 = []
        · simp only [right_anti_drain]
          rw [if_pos (by simp [hrem]), hB, hrem]
          simp
        · have hlt : (right_anti_emit conjuncts rows cap).2.length < rows.length := by
            rcases right_anti_emit_progress conjuncts hconj rows cap hcap hrows with h | h
            · exact h
            · exact absurd h hrem
          have ih := right_anti_drain_spec conjuncts hconj caps
            (right_anti_emit conjuncts rows cap).2
            (fun c hc => hcaps c (List.mem_cons_of_mem _ hc))
            (by simp only [List.length_cons] at hlen; omega)
          simp only [right_anti_drain]
          rw [if_neg (by simpa using hrem), ih, ← hB]

/-- C3: for a `RIGHT_ANTI_JOIN` (with no further output conjuncts
configured), repeatedly calling `get_next` until EOS emits exactly the
build rows whose matched bit stayed clear — those no probe row matched
on the equi-join keys together with the `other_join_conjuncts` — each
exactly once and in table order, even when output batches of any
positive capacities force the hash-table scan to resume from the stored
cursor across calls. -/
theorem right_anti_join_emits_unmatched_rows {α β : Type} (keyEq other : α → β → Bool)
    (conjuncts : β → Bool) (probe : List α) (build : List β) (caps : List ℕ)
    (hconj : ∀ b, conjuncts b = true)
    (hcaps : ∀ c ∈ caps, 1 ≤ c) (hlen : build.length < caps.length) :
    right_anti_join_all keyEq other conjuncts probe build caps =
      build.filter (fun b => !(probe.any (fun p => keyEq p b && other p b))) := by
  unfold right_anti_join_all
  rw [probe_ra_phase_spec,
    right_anti_drain_spec conjuncts hconj caps _ hcaps (by simpa using hlen)]
  rw [List.filter_map]
  simp [Function.comp_def]

/-- C3 witness: build `[1,2,3]`, probe `[2]`, emitted across four
`get_next` calls with output capacity 1 each: exactly `[1, 3]`. -/
theorem right_anti_join_witness :
    right_anti_join_all (fun p b => p == b) (fun _ _ => true) (fun _ => true)
      [2] [1, 2, 3] [1, 1, 1, 1] = [1, 3] := by
  rw [right_anti_join_emits_unmatched_rows (fun p b => p == b) (fun _ _ => true)
    (fun _ => true) [2] [1, 2, 3] [1, 1, 1, 1] (fun _ => rfl) (by decide) (by decide)]
  decide

/-! ## C7: channel sharing in the `DataStreamSender` constructor -/

theorem lookupLo_append_some : ∀ (m l : List (ℤ × ℕ)) (k : ℤ) (v : ℕ),
    lookupLo m k = some v → lookupLo (m ++ l) k = some v
  | [], _, _, _, h => by simp [lookupLo] at h
  | (a, b) :: rest, l, k, v, h => by
      rw [List.cons_append]
      by_cases hk : a = k
      · simp only [lookupLo, if_pos hk] at h ⊢
        exact h
      · simp only [lookupLo, if_neg hk] at h ⊢
        exact lookupLo_append_some rest l k v h

theorem lookupLo_append_none : ∀ (m l : List (ℤ × ℕ)) (k : ℤ),
    lookupLo m k = none → lookupLo (m ++ l) k = lookupLo l k
  | [], _, _, _ => rfl
  | (a, b) :: rest, l, k, h => by
      rw [List.cons_append]
      by_cases hk : a = k
      · simp only [lookupLo, if_pos hk] at h
        exact Option.noConfusion h
      · simp only [lookupLo, if_neg hk] at h ⊢
        exact lookupLo_append_none rest l k h

theorem lookupLo_isSome_iff : ∀ (m : List (ℤ × ℕ)) (k : ℤ),
    (lookupLo m k).isSome = true ↔ k ∈ m.map Prod.fst
  | [], k => by simp [lookupLo]
  | (a, b) :: rest, k => by
      by_cases hk : a = k
      · simp [lookupLo, hk]
      · simp only [lookupLo, if_neg hk, List.map_cons, List.mem_cons]
        rw [lookupLo_isSome_iff rest k]
        constructor
        · exact Or.inr
        · rintro (h | h)
          · exact absurd h.symm hk
          · exact h

theorem forall2_get {γ δ : Type} (R : γ → δ → Prop) :
    ∀ (l1 : List γ) (l2 : List δ), List.Forall₂ R l1 l2 →
      ∀ i (h1 : i < l1.length) (h2 : i < l2.length), R (l1.get ⟨i, h1⟩) (l2.get ⟨i, h2⟩)
  | _, _, List.Forall₂.nil, i, h1, _ => absurd h1 (by simp)
  | _, _, List.Forall₂.cons h _, 0, _, _ => h
  | _, _, List.Forall₂.cons _ t, i + 1, h1, h2 =>
      forall2_get R _ _ t i (by simpa using h1) (by simpa using h2)

theorem buildChannelsAux_spec :
    ∀ (dests : List TUniqueId) (objs : List SenderChannel) (refs : List ℕ) (m : List (ℤ × ℕ)),
      (∀ k v, lookupLo m k = some v → v < objs.length) →
      (∀ k1 k2 v1 v2, lookupLo m k1 = some v1 → lookupLo m k2 = some v2 →
        (v1 = v2 ↔ k1 = k2)) →
      m.length = objs.length →
      (m.map Prod.fst).Nodup →
      (∀ k v, lookupLo m k = some v →
        lookupLo (buildChannelsAux dests objs refs m).2.2 k = some v) ∧
      (∀ k v, lookupLo (buildChannelsAux dests objs refs m).2.2 k = some v →
        v < (buildChannelsAux dests objs refs m).1.length) ∧
      (∀ k1 k2 v1 v2, lookupLo (buildChannelsAux dests objs refs m).2.2 k1 = some v1 →
        lookupLo (buildChannelsAux dests objs refs m).2.2 k2 = some v2 →
        (v1 = v2 ↔ k1 = k2)) ∧
      (buildChannelsAux dests objs refs m).2.2.length =
        (buildChannelsAux dests objs refs m).1.length ∧
      ((buildChannelsAux dests objs refs m).2.2.map Prod.fst).Nodup ∧
      (∀ k, (lookupLo (buildChannelsAux dests objs refs m).2.2 k).isSome = true ↔
        ((lookupLo m k).isSome = true ∨ k ∈ dests.map (fun d => d.lo))) ∧
      (∃ tail, (buildChannelsAux dests objs refs m).2.1 = refs ++ tail ∧
        List.Forall₂ (fun (d : TUniqueId) (r : ℕ) =>
          lookupLo (buildChannelsAux dests objs refs m).2.2 d.lo = some r) dests tail)
  | [], objs, refs, m, hb, hinj, hlen, hnd => by
      simp only [buildChannelsAux]
      exact ⟨fun k v h => h, hb, hinj, hlen, hnd, fun k => by simp,
        ⟨[], by simp, List.Forall₂.nil⟩⟩
  | d :: rest, objs, refs, m, hb, hinj, hlen, hnd => by
      cases hl : lookupLo m d.lo with
      | some idx =>
          simp only [buildChannelsAux, hl]
          obtain ⟨A, B, C, D, E, F, tail, htail, hfa⟩ :=
            buildChannelsAux_spec rest objs (refs ++ [idx]) m hb hinj hlen hnd
          refine ⟨A, B, C, D, E, ?_, ⟨idx :: tail, ?_, ?_⟩⟩
          · intro k
            rw [F k]
            constructor
            · rintro (h | h)
              · exact Or.inl h
              · exact Or.inr (by simp [h])
            · rintro (h | h)
              · exact Or.inl h
              · rcases (by simpa using h : k = d.lo ∨ k ∈ rest.map (fun e => e.lo)) with
                  h' | h'
                · subst h'
                  exact Or.inl (by simp [hl])
                · exact Or.inr h'
          · rw [htail, List.append_assoc]
            rfl
          · exact List.Forall₂.cons (A d.lo idx hl) hfa
      | none =>
          simp only [buildChannelsAux, hl]
          have hsingle : ∀ k v, lookupLo [(d.lo, objs.length)] k = some v →
              k = d.lo ∧ v = objs.length := by
            intro k v h
            by_cases hdk : d.lo = k
            · simp only [lookupLo, if_pos hdk] at h
              injection h with h
              exact ⟨hdk.symm, h.symm⟩
            · simp only [lookupLo, if_neg hdk] at h
              exact absurd h (by simp [lookupLo])
          have hb' : ∀ k v, lookupLo (m ++ [(d.lo, objs.length)]) k = some v →
              v < (objs ++ [SenderChannel.mk d]).length := by
            intro k v h
            by_cases hk : lookupLo m k = none
            · rw [lookupLo_append_none m _ k hk] at h
              obtain ⟨-, hv⟩ := hsingle k v h
              simp only [List.length_append, List.length_singleton]
              omega
            · obtain ⟨v', hv'⟩ := Option.ne_none_iff_exists'.mp hk
              rw [lookupLo_append_some m _ k v' hv'] at h
              injection h with h
              have hlt := hb k v' hv'
              simp only [List.length_append, List.length_singleton]
              omega
          have hinj' : ∀ k1 k2 v1 v2, lookupLo (m ++ [(d.lo, objs.length)]) k1 = some v1 →
              lookupLo (m ++ [(d.lo, objs.length)]) k2 = some v2 → (v1 = v2 ↔ k1 = k2) := by
            intro k1 k2 v1 v2 h1 h2
            by_cases hk1 : lookupLo m k1 = none <;> by_cases hk2 : lookupLo m k2 = none
            · rw [lookupLo_append_none m _ k1 hk1] at h1
              rw [lookupLo_append_none m _ k2 hk2] at h2
              obtain ⟨hk1', hv1⟩ := hsingle k1 v1 h1
              obtain ⟨hk2', hv2⟩ := hsingle k2 v2 h2
              rw [hk1', hk2', hv1, hv2]
              simp
            · obtain ⟨v2', hv2'⟩ := Option.ne_none_iff_exists'.mp hk2
              rw [lookupLo_append_some m _ k2 v2' hv2'] at h2
              injection h2 with h2
              rw [lookupLo_append_none m _ k1 hk1] at h1
              obtain ⟨hk1', hv1⟩ := hsingle k1 v1 h1
              have hlt := hb k2 v2' hv2'
              constructor
              · intro h
                omega
              · intro h
                exfalso
                rw [hk1'] at h
                rw [← h] at hv2'
                rw [hv2'] at hl
                exact Option.noConfusion hl
            · obtain ⟨v1', hv1'⟩ := Option.ne_none_iff_exists'.mp hk1
              rw [lookupLo_append_some m _ k1 v1' hv1'] at h1
              injection h1 with h1
              rw [lookupLo_append_none m _ k2 hk2] at h2
              obtain ⟨hk2', hv2⟩ := hsingle k2 v2 h2
              have hlt := hb k1 v1' hv1'
              constructor
              · intro h
                omega
              · intro h
                exfalso
                rw [hk2'] at h
                rw [h] at hv1'
                rw [hv1'] at hl
                exact Option.noConfusion hl
            · obtain ⟨v1', hv1'⟩ := Option.ne_none_iff_exists'.mp hk1
              obtain ⟨v2', hv2'⟩ := Option.ne_none_iff_exists'.mp hk2
              rw [lookupLo_append_some m _ k1 v1' hv1'] at h1
              rw [lookupLo_append_some m _ k2 v2' hv2'] at h2
              injection h1 with h1
              injection h2 with h2
              rw [← h1, ← h2]
              exact hinj k1 k2 v1' v2' hv1' hv2'
          have hlen' : (m ++ [(d.lo, objs.length)]).length =
              (objs ++ [SenderChannel.mk d]).length := by
            simp [hlen]
          have hnd' : ((m ++ [(d.lo, objs.length)]).map Prod.fst).Nodup := by
            rw [List.map_append, List.nodup_append]
            refine ⟨hnd, by simp, ?_⟩
            intro x hx hx2
            simp only [List.map_cons, List.map_nil, List.mem_singleton] at hx2
            subst hx2
            have hsome : (lookupLo m d.lo).isSome = true := (lookupLo_isSome_iff m d.lo).mpr hx
            rw [hl] at hsome
            exact Bool.noConfusion hsome
          obtain ⟨A, B, C, D, E, F, tail, htail, hfa⟩ :=
            buildChannelsAux_spec rest (objs ++ [SenderChannel.mk d])
              (refs ++ [objs.length]) (m ++ [(d.lo, objs.length)]) hb' hinj' hlen' hnd'
          have hm'self : lookupLo (m ++ [(d.lo, objs.length)]) d.lo = some objs.length := by
            rw [lookupLo_append_none m _ d.lo hl]
            simp [lookupLo]
          refine ⟨?_, B, C, D, E, ?_, ⟨objs.length :: tail, ?_, ?_⟩⟩
          · intro k v h
            exact A k v (lookupLo_append_some m _ k v h)
          · intro k
            rw [F k]
            have hm' : (lookupLo (m ++ [(d.lo, objs.length)]) k).isSome = true ↔
                ((lookupLo m k).isSome = true ∨ k = d.lo) := by
              by_cases hk : lookupLo m k = none
              · rw [lookupLo_append_none m _ k hk, hk]
                constructor
                · intro h
                  right
                  by_cases hdk : d.lo = k
                  · exact hdk.symm
                  · simp [lookupLo, hdk] at h
                · rintro (h | h)
                  · exact absurd h (by simp)
                  · simp [lookupLo, h]
              · obtain ⟨v', hv'⟩ := Option.ne_none_iff_exists'.mp hk
                rw [lookupLo_append_some m _ k v' hv', hv']
                simp
            rw [hm']
            simp only [List.map_cons, List.mem_cons]
            constructor
            · rintro ((h | h) | h)
              · exact Or.inl h
              · exact Or.inr (Or.inl h)
              · exact Or.inr (Or.inr h)
            · rintro (h | h | h)
              · exact Or.inl (Or.inl h)
              · exact Or.inl (Or.inr h)
              · exact Or.inr h
          · rw [htail, List.append_assoc]
            rfl
          · exact List.Forall₂.cons (A d.lo objs.length hm'self) hfa

/-- C7 (amended): destinations that share the *low 64 bits* of the
fragment instance id share one underlying channel object — two
`_channels` entries point at the same `_channel_shared_ptrs` element
exactly when the `.lo` parts agree, and the number of channel objects
equals the number of distinct `.lo` values — while `_channels` still
holds one entry per logical destination. -/
theorem data_stream_sender_channel_sharing (dests : List TUniqueId) :
    ((buildChannels dests).2.1.length = dests.length) ∧
    (∀ i j (hi : i < dests.length) (hj : j < dests.length)
      (hi2 : i < (buildChannels dests).2.1.length)
      (hj2 : j < (buildChannels dests).2.1.length),
      ((buildChannels dests).2.1.get ⟨i, hi2⟩ = (buildChannels dests).2.1.get ⟨j, hj2⟩ ↔
        (dests.get ⟨i, hi⟩).lo = (dests.get ⟨j, hj⟩).lo)) ∧
    ((buildChannels dests).1.length = (dests.map (fun d => d.lo)).toFinset.card) := by
  obtain ⟨A, B, C, D, E, F, tail, htail, hfa⟩ :=
    buildChannelsAux_spec dests [] [] []
      (by intro k v h; simp [lookupLo] at h)
      (by intro k1 k2 v1 v2 h1 h2; simp [lookupLo] at h1)
      rfl (by simp)
  have hBC : buildChannelsAux dests [] [] [] = buildChannels dests := rfl
  rw [hBC] at A B C D E F htail hfa
  have hrefs : (buildChannels dests).2.1 = tail := by simpa using htail
  have hfa' : List.Forall₂ (fun (d : TUniqueId) (r : ℕ) =>
      lookupLo (buildChannels dests).2.2 d.lo = some r) dests ((buildChannels dests).2.1) := by
    rw [hrefs]
    exact hfa
  have hlen : (buildChannels dests).2.1.length = dests.length := by
    rw [hrefs, ← List.Forall₂.length_eq hfa]
  refine ⟨hlen, ?_, ?_⟩
  · intro i j hi hj hi2 hj2
    have hli := forall2_get _ dests (buildChannels dests).2.1 hfa' i hi hi2
    have hlj := forall2_get _ dests (buildChannels dests).2.1 hfa' j hj hj2
    exact C (dests.get ⟨i, hi⟩).lo (dests.get ⟨j, hj⟩).lo _ _ hli hlj
  · have hcard : ((buildChannels dests).2.2.map Prod.fst).toFinset.card =
        ((buildChannels dests).2.2.map Prod.fst).length := by
      rw [List.toFinset_card_of_nodup E]
    have hsets : ((buildChannels dests).2.2.map Prod.fst).toFinset =
        (dests.map (fun d => d.lo)).toFinset := by
      apply Finset.ext
      intro k
      rw [List.mem_toFinset, List.mem_toFinset, ← lookupLo_isSome_iff, F k]
      simp [lookupLo]
    calc (buildChannels dests).1.length
        = (buildChannels dests).2.2.length := D.symm
      _ = ((buildChannels dests).2.2.map Prod.fst).length := by rw [List.length_map]
      _ = ((buildChannels dests).2.2.map Prod.fst).toFinset.card := hcard.symm
      _ = (dests.map (fun d => d.lo)).toFinset.card := by rw [hsets]

/-- C7 counterexample: two destinations with distinct fragment instance
ids (different high parts) but equal low parts share one channel
object, so the constructor does not create one object per distinct id —
the dedup map is keyed by `fragment_instance_id.lo` only. -/
theorem data_stream_sender_channel_sharing_counterexample :
    (⟨0, 5⟩ : TUniqueId) ≠ ⟨1, 5⟩ ∧
    (buildChannels [⟨0, 5⟩, ⟨1, 5⟩]).1.length = 1 ∧
    (buildChannels [⟨0, 5⟩, ⟨1, 5⟩]).2.1 = [0, 0] := by
  decide

/-- C7 witness: three destinations over two distinct `.lo` values — the
first and third destination share a channel object, two objects exist,
and the channel list still has three entries. -/
theorem data_stream_sender_channel_sharing_witness :
    (buildChannels [⟨0, 1⟩, ⟨0, 2⟩, ⟨1, 1⟩]).2.1.length = 3 ∧
    (buildChannels [⟨0, 1⟩, ⟨0, 2⟩, ⟨1, 1⟩]).2.1.get ⟨0, by decide⟩ =
      (buildChannels [⟨0, 1⟩, ⟨0, 2⟩, ⟨1, 1⟩]).2.1.get ⟨2, by decide⟩ ∧
    (buildChannels [⟨0, 1⟩, ⟨0, 2⟩, ⟨1, 1⟩]).1.length = 2 := by
  have h := data_stream_sender_channel_sharing [⟨0, 1⟩, ⟨0, 2⟩, ⟨1, 1⟩]
  refine ⟨h.1, ?_, ?_⟩
  · exact (h.2.1 0 2 (by decide) (by decide) (by decide) (by decide)).mpr (by decide)
  · exact h.2.2.trans (by decide)

/-! ## C5: hash-partitioned dispatch in `send_chunk` -/

theorem count_loop_succ (ch : ℕ → ℕ) (n : ℕ) (c : ℕ) :
    count_loop ch (n + 1) c =
      if c = ch n then count_loop ch n c + 1 else count_loop ch n c := by
  unfold count_loop
  rw [List.range_succ, List.foldl_append]
  rfl

theorem count_loop_spec (ch : ℕ → ℕ) : ∀ n c, count_loop ch n c = cntAll ch n c
  | 0, c => rfl
  | n + 1, c => by
      rw [count_loop_succ, count_loop_spec ch n c]
      unfold cntAll
      rw [List.range_succ, List.filter_append]
      by_cases h : ch n = c
      · rw [if_pos h.symm]
        simp [h]
      · rw [if_neg (fun hc => h hc.symm)]
        simp [h]

theorem prefix_sum_loop_succ (N : ℕ) (sp : ℕ → ℕ) (d : ℕ) :
    prefix_sum_loop (N + 1) sp d =
      if d = N + 1 then prefix_sum_loop N sp (N + 1) + prefix_sum_loop N sp N
      else prefix_sum_loop N sp d := by
  unfold prefix_sum_loop
  rw [List.range_succ, List.foldl_append]
  rfl

theorem prefix_sum_loop_spec : ∀ (N : ℕ) (sp : ℕ → ℕ),
    (∀ c, c ≤ N → prefix_sum_loop N sp c = ((List.range (c + 1)).map sp).sum) ∧
    (∀ c, N < c → prefix_sum_loop N sp c = sp c)
  | 0, sp => by
      constructor
      · intro c hc
        have hc0 : c = 0 := Nat.le_zero.mp hc
        subst hc0
        simp [prefix_sum_loop, List.range_succ]
      · intro c hc
        simp [prefix_sum_loop]
  | N + 1, sp => by
      obtain ⟨ih1, ih2⟩ := prefix_sum_loop_spec N sp
      constructor
      · intro c hc
        rw [prefix_sum_loop_succ]
        by_cases h : c = N + 1
        · rw [if_pos h, h, ih2 (N + 1) (by omega), ih1 N (by omega)]
          have h2 : List.range (N + 1 + 1) = List.range (N + 1) ++ [N + 1] :=
            List.range_succ (N + 1)
          rw [h2, List.map_append, List.sum_append]
          simp [Nat.add_comm]
        · rw [if_neg h, ih1 c (by omega)]
      · intro c hc
        rw [prefix_sum_loop_succ, if_neg (by omega), ih2 c (by omega)]

theorem cntFrom_zero (ch : ℕ → ℕ) (n c : ℕ) : cntFrom ch n 0 c = cntAll ch n c := by
  unfold cntFrom cntAll
  rw [Nat.sub_zero, ← List.range_eq_range']

theorem cntFrom_of_end (ch : ℕ → ℕ) (n c : ℕ) : cntFrom ch n n c = 0 := by
  unfold cntFrom
  simp

theorem cntFrom_succ (ch : ℕ → ℕ) (n k c : ℕ) (hk : k < n) :
    cntFrom ch n k c = (if ch k = c then 1 else 0) + cntFrom ch n (k + 1) c := by
  unfold cntFrom
  have hrange : List.range' k (n - k) = k :: List.range' (k + 1) (n - (k + 1)) := by
    have hnk : n - k = (n - (k + 1)) + 1 := by omega
    rw [hnk, List.range'_succ]
  rw [hrange, List.filter_cons]
  by_cases h : ch k = c <;> simp [h, Nat.add_comm]

theorem cntFrom_le_cntAll (ch : ℕ → ℕ) (n c : ℕ) : ∀ k, cntFrom ch n k c ≤ cntAll ch n c := by
  intro k
  by_cases hk : k ≤ n
  · unfold cntFrom cntAll
    rw [List.range_eq_range']
    have happ := List.range'_append 0 k (n - k) 1
    rw [show 0 + 1 * k = k by omega, show n - k + k = n by omega] at happ
    rw [← happ, List.filter_append, List.length_append]
    omega
  · unfold cntFrom
    have : n - k = 0 := by omega
    simp [this]

theorem preC_succ (ch : ℕ → ℕ) (n c : ℕ) :
    preC ch n (c + 1) = preC ch n c + cntAll ch n (c + 1) := by
  unfold preC
  rw [List.range_succ, List.map_append, List.sum_append]
  simp

theorem preC_zero (ch : ℕ → ℕ) (n : ℕ) : preC ch n 0 = cntAll ch n 0 := by
  unfold preC
  simp [List.range_succ]

theorem cntAll_le_preC (ch : ℕ → ℕ) (n c : ℕ) : cntAll ch n c ≤ preC ch n c := by
  cases c with
  | zero => rw [preC_zero]
  | succ c =>
      rw [preC_succ]
      omega

theorem preC_mono (ch : ℕ → ℕ) (n : ℕ) : ∀ a b, a ≤ b → preC ch n a ≤ preC ch n b := by
  intro a b hab
  induction b with
  | zero =>
      have : a = 0 := by omega
      subst this
      exact le_refl _
  | succ b ih =>
      by_cases h : a = b + 1
      · subst h
        exact le_refl _
      · have := ih (by omega)
        rw [preC_succ]
        omega

theorem sum_map_add {γ : Type} (f g : γ → ℕ) : ∀ l : List γ,
    (l.map (fun x => f x + g x)).sum = (l.map f).sum + (l.map g).sum
  | [] => rfl
  | x :: l => by
      simp only [List.map_cons, List.sum_cons, sum_map_add f g l]
      omega

theorem sum_ite_range_zero (v : ℕ) : ∀ (N k : ℕ), N ≤ k →
    ((List.range N).map (fun c => if k = c then v else 0)).sum = 0
  | 0, k, _ => rfl
  | N + 1, k, h => by
      rw [List.range_succ, List.map_append, List.sum_append,
        sum_ite_range_zero v N k (by omega)]
      simp
      omega

theorem sum_ite_range_one (v : ℕ) : ∀ (N k : ℕ), k < N →
    ((List.range N).map (fun c => if k = c then v else 0)).sum = v
  | 0, k, h => absurd h (by omega)
  | N + 1, k, h => by
      rw [List.range_succ, List.map_append, List.sum_append]
      by_cases hk : k = N
      · subst hk
        rw [sum_ite_range_zero v k k (le_refl k)]
        simp
      · rw [sum_ite_range_one v N k (by omega)]
        simp [hk]

theorem sum_filter_length_channels (ch : ℕ → ℕ) (N : ℕ) :
    ∀ l : List ℕ, (∀ x ∈ l, ch x < N) →
      ((List.range N).map (fun c => (l.filter (fun i => ch i = c)).length)).sum = l.length
  | [], _ => by simp
  | x :: l, h => by
      have ih := sum_filter_length_channels ch N l (fun y hy => h y (List.mem_cons_of_mem _ hy))
      have hx := h x (List.mem_cons_self _ _)
      have hmap : (List.range N).map (fun c => ((x :: l).filter (fun i => ch i = c)).length) =
          (List.range N).map (fun c => (l.filter (fun i => ch i = c)).length +
            (if ch x = c then 1 else 0)) := by
        apply List.map_congr_left
        intro c _
        by_cases hc : ch x = c <;> simp [List.filter_cons, hc, Nat.add_comm]
      rw [hmap, sum_map_add, ih, sum_ite_range_one 1 N (ch x) hx]
      simp

theorem preC_top (ch : ℕ → ℕ) (n N : ℕ) (hN : 0 < N) (hch : ∀ i, ch i < N) :
    preC ch n (N - 1) = n := by
  unfold preC
  have hN1 : N - 1 + 1 = N := by omega
  rw [hN1]
  have := sum_filter_length_channels ch N (List.range n) (fun x _ => hch x)
  unfold cntAll
  rw [this, List.length_range]

theorem fill_row_indexes_spec (ch : ℕ → ℕ) (n N : ℕ) (hch : ∀ i, ch i < N) :
    ∀ (k : ℕ) (sp out : ℕ → ℕ), k ≤ n →
      (∀ c, c ≤ N → sp c + cntFrom ch n k c = preC ch n c) →
      (∀ c, c ≤ N → (List.range' (sp c) (preC ch n c - sp c)).map out =
        (List.range' k (n - k)).filter (fun i => ch i = c)) →
      (∀ c, c ≤ N → (fill_row_indexes ch k sp out).1 c + cntAll ch n c = preC ch n c) ∧
      (∀ c, c ≤ N →
        (List.range' ((fill_row_indexes ch k sp out).1 c)
            (preC ch n c - (fill_row_indexes ch k sp out).1 c)).map
          (fill_row_indexes ch k sp out).2 =
        (List.range n).filter (fun i => ch i = c))
  | 0, sp, out, hk, h1, h2 => by
      constructor
      · intro c hc
        have h := h1 c hc
        rw [cntFrom_zero] at h
        simpa [fill_row_indexes] using h
      · intro c hc
        have h := h2 c hc
        rw [show n - 0 = n from rfl, ← List.range_eq_range'] at h
        simpa [fill_row_indexes] using h
  | k + 1, sp, out, hk, h1, h2 => by
      have hc0N : ch k < N := hch k
      have h1c0 := h1 (ch k) (by omega)
      have hcnt : cntFrom ch n (k + 1) (ch k) + 1 = cntFrom ch n k (ch k) := by
        rw [cntFrom_succ ch n k (ch k) (by omega), if_pos rfl]
        omega
      have hcle : cntFrom ch n k (ch k) ≤ cntAll ch n (ch k) := cntFrom_le_cntAll ch n (ch k) k
      have hcpre : cntAll ch n (ch k) ≤ preC ch n (ch k) := cntAll_le_preC ch n (ch k)
      have hsp_pos : 1 ≤ sp (ch k) := by omega
      have hsp_le : sp (ch k) ≤ preC ch n (ch k) := by omega
      have hdisj : ∀ c, c ≤ N → c ≠ ch k → ∀ p, sp c ≤ p → p < preC ch n c →
          p ≠ sp (ch k) - 1 := by
        intro c hc hne p hp1 hp2
        rcases Nat.lt_or_ge c (ch k) with hlt | hge
        · have e4 : preC ch n (ch k - 1) + cntAll ch n (ch k) = preC ch n (ch k) := by
            have h := preC_succ ch n (ch k - 1)
            rw [show ch k - 1 + 1 = ch k by omega] at h
            omega
          have e5 : preC ch n c ≤ preC ch n (ch k - 1) :=
            preC_mono ch n c (ch k - 1) (by omega)
          omega
        · have hgt : ch k < c := by omega
          have e4 : preC ch n (c - 1) + cntAll ch n c = preC ch n c := by
            have h := preC_succ ch n (c - 1)
            rw [show c - 1 + 1 = c by omega] at h
            omega
          have e5 : preC ch n (ch k) ≤ preC ch n (c - 1) :=
            preC_mono ch n (ch k) (c - 1) (by omega)
          have e6 : cntFrom ch n (k + 1) c ≤ cntAll ch n c := cntFrom_le_cntAll ch n c (k + 1)
          have e1 := h1 c hc
          omega
      have h1' : ∀ c, c ≤ N →
          (fun d => if d = ch k then sp (ch k) - 1 else sp d) c + cntFrom ch n k c =
            preC ch n c := by
        intro c hc
        dsimp only
        by_cases hce : c = ch k
        · subst hce
          rw [if_pos rfl]
          omega
        · rw [if_neg hce]
          have e1 := h1 c hc
          have heq : cntFrom ch n k c = cntFrom ch n (k + 1) c := by
            rw [cntFrom_succ ch n k c (by omega), if_neg (fun hcc => hce hcc.symm)]
            omega
          omega
      have h2' : ∀ c, c ≤ N →
          (List.range' ((fun d => if d = ch k then sp (ch k) - 1 else sp d) c)
              (preC ch n c - (fun d => if d = ch k then sp (ch k) - 1 else sp d) c)).map
            (fun p => if p = sp (ch k) - 1 then k else out p) =
          (List.range' k (n - k)).filter (fun i => ch i = c) := by
        intro c hc
        dsimp only
        have hcons : List.range' k (n - k) = k :: List.range' (k + 1) (n - (k + 1)) := by
          rw [show n - k = (n - (k + 1)) + 1 by omega, List.range'_succ]
        by_cases hce : c = ch k
        · subst hce
          rw [if_pos rfl]
          have hlen2 : preC ch n (ch k) - (sp (ch k) - 1) =
              (preC ch n (ch k) - sp (ch k)) + 1 := by omega
          rw [hlen2, List.range'_succ, show sp (ch k) - 1 + 1 = sp (ch k) by omega]
          rw [List.map_cons, if_pos rfl]
          have htail : (List.range' (sp (ch k)) (preC ch n (ch k) - sp (ch k))).map
              (fun p => if p = sp (ch k) - 1 then k else out p) =
              (List.range' (sp (ch k)) (preC ch n (ch k) - sp (ch k))).map out := by
            apply List.map_congr_left
            intro p hp
            rw [List.mem_range'_1] at hp
            rw [if_neg (by omega)]
          rw [htail, h2 (ch k) (by omega), hcons, List.filter_cons]
          simp
        · rw [if_neg hce]
          have htail : (List.range' (sp c) (preC ch n c - sp c)).map
              (fun p => if p = sp (ch k) - 1 then k else out p) =
              (List.range' (sp c) (preC ch n c - sp c)).map out := by
            apply List.map_congr_left
            intro p hp
            rw [List.mem_range'_1] at hp
            have e1 := h1 c hc
            have hplt : p < preC ch n c := by omega
            rw [if_neg (hdisj c hc hce p hp.1 hplt)]
          rw [htail, h2 c hc, hcons, List.filter_cons]
          have : (decide (ch k = c)) = false := by
            simp
            exact fun hcc => hce hcc.symm
          simp [this]
      have hrec := fill_row_indexes_spec ch n N hch k
        (fun d => if d = ch k then sp (ch k) - 1 else sp d)
        (fun p => if p = sp (ch k) - 1 then k else out p)
        (by omega) h1' h2'
      simpa [fill_row_indexes] using hrec

theorem count_filter_eq (p : ℕ → Bool) (a : ℕ) : ∀ l : List ℕ,
    (l.filter p).count a = if p a then l.count a else 0
  | [] => by cases hp : p a <;> simp [hp]
  | x :: l => by
      have ih := count_filter_eq p a l
      rw [List.filter_cons]
      by_cases hxa : x = a
      · subst hxa
        cases hp : p x <;> simp [hp, List.count_cons, ih]
      · cases hp : p x <;> simp [hp, List.count_cons, ih, hxa]

theorem count_flatMap_helper {γ : Type} (g : γ → List ℕ) (a : ℕ) : ∀ l : List γ,
    (l.flatMap g).count a = (l.map (fun x => (g x).count a)).sum
  | [] => rfl
  | x :: l => by
      rw [List.flatMap_cons, List.count_append, List.map_cons, List.sum_cons,
        count_flatMap_helper g a l]

theorem flatMap_filter_perm (ch : ℕ → ℕ) (n N : ℕ) (hch : ∀ i, ch i < N) :
    ((List.range N).flatMap (fun c => (List.range n).filter (fun i => ch i = c))).Perm
      (List.range n) := by
  rw [List.perm_iff_count]
  intro a
  rw [count_flatMap_helper]
  have hmap : (List.range N).map
      (fun c => (((List.range n).filter (fun i => ch i = c)).count a)) =
      (List.range N).map (fun c => if ch a = c then (List.range n).count a else 0) := by
    apply List.map_congr_left
    intro c _
    rw [count_filter_eq]
    by_cases h : ch a = c <;> simp [h]
  rw [hmap, sum_ite_range_one _ N (ch a) (hch a)]

theorem filled_concat (ch : ℕ → ℕ) (n N : ℕ) (hch : ∀ i, ch i < N) (spF outF : ℕ → ℕ)
    (hfin1 : ∀ c, c ≤ N → spF c + cntAll ch n c = preC ch n c)
    (hfin2 : ∀ c, c ≤ N → (List.range' (spF c) (preC ch n c - spF c)).map outF =
      (List.range n).filter (fun i => ch i = c)) :
    ∀ m, m < N → (List.range' 0 (preC ch n m)).map outF =
      (List.range (m + 1)).flatMap (fun c => (List.range n).filter (fun i => ch i = c))
  | 0, hm => by
      have e := hfin1 0 (by omega)
      have e2 := preC_zero ch n
      have h0 : spF 0 = 0 := by omega
      have h2 := hfin2 0 (by omega)
      rw [h0] at h2
      rw [show preC ch n 0 - 0 = preC ch n 0 from rfl] at h2
      rw [h2]
      simp [List.range_succ]
  | m + 1, hm => by
      have ih := filled_concat ch n N hch spF outF hfin1 hfin2 m (by omega)
      have hsucc := preC_succ ch n m
      have e1 := hfin1 (m + 1) (by omega)
      have hle := cntAll_le_preC ch n (m + 1)
      have happ := List.range'_append 0 (preC ch n m) (cntAll ch n (m + 1)) 1
      rw [show 0 + 1 * preC ch n m = preC ch n m by omega,
        show cntAll ch n (m + 1) + preC ch n m = preC ch n (m + 1) by omega] at happ
      rw [← happ, List.map_append, ih]
      have h2 := hfin2 (m + 1) (by omega)
      rw [show spF (m + 1) = preC ch n m by omega] at h2
      rw [show preC ch n (m + 1) - preC ch n m = cntAll ch n (m + 1) by omega] at h2
      rw [h2]
      rw [show List.range (m + 1 + 1) = List.range (m + 1) ++ [m + 1] from
        List.range_succ (m + 1)]
      rw [List.flatMap_append]
      simp

theorem filterMap_fst_nodup {δ : Type} (f : ℕ → Option (ℕ × δ))
    (hf : ∀ c x, f c = some x → x.1 = c) :
    ∀ l : List ℕ, l.Nodup → ((l.filterMap f).map (fun t => t.1)).Nodup
  | [], _ => by simp
  | x :: l, h => by
      obtain ⟨hx, hl⟩ := List.nodup_cons.mp h
      have ih := filterMap_fst_nodup f hf l hl
      cases hfx : f x with
      | none =>
          rw [List.filterMap_cons_none hfx]
          exact ih
      | some y =>
          rw [List.filterMap_cons_some hfx, List.map_cons, List.nodup_cons]
          refine ⟨?_, ih⟩
          intro hmem
          obtain ⟨t, ht, hteq⟩ := List.mem_map.mp hmem
          obtain ⟨a, ha, hfa⟩ := List.mem_filterMap.mp ht
          have h1 := hf a t hfa
          have h2 := hf x y hfx
          rw [h1, h2] at hteq
          exact hx (hteq ▸ ha)

theorem hashpart_segments (ch : ℕ → ℕ) (n N : ℕ) (spF outF : ℕ → ℕ)
    (hfin1 : ∀ c, c ≤ N → spF c + cntAll ch n c = preC ch n c)
    (hfin2 : ∀ c, c ≤ N → (List.range' (spF c) (preC ch n c - spF c)).map outF =
      (List.range n).filter (fun i => ch i = c)) :
    ∀ c, c < N → (List.range' (spF c) (spF (c + 1) - spF c)).map outF =
      (List.range n).filter (fun i => ch i = c) := by
  intro c hc
  have e1 := hfin1 c (by omega)
  have e2 := hfin1 (c + 1) (by omega)
  have e3 := preC_succ ch n c
  have e4 := cntAll_le_preC ch n c
  have e5 := cntAll_le_preC ch n (c + 1)
  rw [show spF (c + 1) - spF c = preC ch n c - spF c by omega]
  exact hfin2 c (by omega)

theorem hashpart_perm (ch : ℕ → ℕ) (n N : ℕ) (hN : 0 < N) (hch : ∀ i, ch i < N)
    (spF outF : ℕ → ℕ)
    (hfin1 : ∀ c, c ≤ N → spF c + cntAll ch n c = preC ch n c)
    (hfin2 : ∀ c, c ≤ N → (List.range' (spF c) (preC ch n c - spF c)).map outF =
      (List.range n).filter (fun i => ch i = c)) :
    ((List.range n).map outF).Perm (List.range n) := by
  have htop := preC_top ch n N hN hch
  have hconcat := filled_concat ch n N hch spF outF hfin1 hfin2 (N - 1) (by omega)
  rw [htop, show N - 1 + 1 = N by omega] at hconcat
  rw [List.range_eq_range', hconcat, ← List.range_eq_range']
  exact flatMap_filter_perm ch n N hch

theorem hashpart_invocations (sp : ℕ → ℕ) (lo : ℕ → ℤ) (N : ℕ) (cnt : ℕ → ℕ)
    (hsz : ∀ c, c < N → sp (c + 1) - sp c = cnt c) :
    (∀ c f s, (c, f, s) ∈ (List.range N).filterMap (fun c =>
        if sp (c + 1) - sp c = 0 then none
        else if lo c = -1 then none
        else some (c, sp c, sp (c + 1) - sp c)) ↔
      (c < N ∧ lo c ≠ -1 ∧ f = sp c ∧ s = cnt c ∧ s ≠ 0)) ∧
    (((List.range N).filterMap (fun c =>
        if sp (c + 1) - sp c = 0 then none
        else if lo c = -1 then none
        else some (c, sp c, sp (c + 1) - sp c))).map (fun t => t.1)).Nodup := by
  constructor
  · intro c f s
    rw [List.mem_filterMap]
    constructor
    · rintro ⟨a, ha, hfa⟩
      rw [List.mem_range] at ha
      by_cases h0 : sp (a + 1) - sp a = 0
      · rw [if_pos h0] at hfa
        exact absurd hfa (by simp)
      · rw [if_neg h0] at hfa
        by_cases hlo : lo a = -1
        · rw [if_pos hlo] at hfa
          exact absurd hfa (by simp)
        · rw [if_neg hlo] at hfa
          injection hfa with hfa
          injection hfa with hq1 hq2
          injection hq2 with hq2 hq3
          subst hq1
          subst hq2
          subst hq3
          exact ⟨ha, hlo, rfl, hsz a ha, h0⟩
    · rintro ⟨hc, hlo, hf, hs, hs0⟩
      subst hf
      subst hs
      refine ⟨c, List.mem_range.mpr hc, ?_⟩
      rw [if_neg (by rw [hsz c hc]; exact hs0), if_neg hlo, hsz c hc]
  · refine filterMap_fst_nodup _ ?_ (List.range N) (List.nodup_range N)
    intro c x hcx
    by_cases h0 : sp (c + 1) - sp c = 0
    · rw [if_pos h0] at hcx
      exact absurd hcx (by simp)
    · rw [if_neg h0] at hcx
      by_cases hlo : lo c = -1
      · rw [if_pos hlo] at hcx
        exact absurd hcx (by simp)
      · rw [if_neg hlo] at hcx
        injection hcx with h
        rw [← h]

/-- C5 (amended): in hash-partitioned `send_chunk`, after hashes and
prefix sums, `row_indexes` is a permutation of `0 .. num_rows - 1` in
which, for every channel `c`, the positions
`channel_row_idx_start_points[c]` up to
`channel_row_idx_start_points[c+1]` hold exactly the rows whose hash
value modulo the channel count equals `c` (in row order), and
`add_rows_selective` is invoked once per channel that received at least
one row *and whose destination `fragment_instance_id.lo` is not `-1`*. -/
theorem send_chunk_hash_partition_spec (hash_values : ℕ → ℕ) (num_rows num_channels : ℕ)
    (channel_lo : ℕ → ℤ) (r : SendChunkHashResult) (hN : 0 < num_channels)
    (hr : r = send_chunk_hash_partitioned hash_values num_rows num_channels channel_lo) :
    ((List.range num_rows).map r.row_indexes).Perm (List.range num_rows) ∧
    (∀ c, c < num_channels →
      (List.range' (r.start_points c) (r.start_points (c + 1) - r.start_points c)).map
          r.row_indexes =
        (List.range num_rows).filter (fun i => hash_values i % num_channels = c)) ∧
    (∀ c f s, (c, f, s) ∈ r.invocations ↔
      (c < num_channels ∧ channel_lo c ≠ -1 ∧ f = r.start_points c ∧
        s = cntAll (fun i => hash_values i % num_channels) num_rows c ∧ s ≠ 0)) ∧
    (r.invocations.map (fun t => t.1)).Nodup := by
  subst hr
  have hch : ∀ i, hash_values i % num_channels < num_channels := fun i => Nat.mod_lt _ hN
  have hps := prefix_sum_loop_spec num_channels
    (count_loop (fun i => hash_values i % num_channels) num_rows)
  have hinit1 : ∀ c, c ≤ num_channels →
      prefix_sum_loop num_channels
          (count_loop (fun i => hash_values i % num_channels) num_rows) c +
        cntFrom (fun i => hash_values i % num_channels) num_rows num_rows c =
      preC (fun i => hash_values i % num_channels) num_rows c := by
    intro c hc
    rw [cntFrom_of_end, Nat.add_zero, hps.1 c hc]
    unfold preC
    congr 1
    apply List.map_congr_left
    intro d _
    exact count_loop_spec (fun i => hash_values i % num_channels) num_rows d
  have hinit2 : ∀ c, c ≤ num_channels →
      (List.range' (prefix_sum_loop num_channels
          (count_loop (fun i => hash_values i % num_channels) num_rows) c)
        (preC (fun i => hash_values i % num_channels) num_rows c -
          prefix_sum_loop num_channels
            (count_loop (fun i => hash_values i % num_channels) num_rows) c)).map
        (fun _ => 0) =
      (List.range' num_rows (num_rows - num_rows)).filter
        (fun i => (fun j => hash_values j % num_channels) i = c) := by
    intro c hc
    have h0 := cntFrom_of_end (fun i => hash_values i % num_channels) num_rows c
    have h1 := hinit1 c hc
    have he : preC (fun i => hash_values i % num_channels) num_rows c -
        prefix_sum_loop num_channels
          (count_loop (fun i => hash_values i % num_channels) num_rows) c = 0 := by
      omega
    rw [he, Nat.sub_self]
    rfl
  obtain ⟨hfin1, hfin2⟩ := fill_row_indexes_spec (fun i => hash_values i % num_channels)
    num_rows num_channels hch num_rows
    (prefix_sum_loop num_channels (count_loop (fun i => hash_values i % num_channels) num_rows))
    (fun _ => 0) (le_refl _) hinit1 hinit2
  have hsz : ∀ c, c < num_channels →
      (fill_row_indexes (fun i => hash_values i % num_channels) num_rows
          (prefix_sum_loop num_channels
            (count_loop (fun i => hash_values i % num_channels) num_rows))
          (fun _ => 0)).1 (c + 1) -
        (fill_row_indexes (fun i => hash_values i % num_channels) num_rows
          (prefix_sum_loop num_channels
            (count_loop (fun i => hash_values i % num_channels) num_rows))
          (fun _ => 0)).1 c =
      cntAll (fun i => hash_values i % num_channels) num_rows c := by
    intro c hc
    have e1 := hfin1 c (by omega)
    have e2 := hfin1 (c + 1) (by omega)
    have e3 := preC_succ (fun i => hash_values i % num_channels) num_rows c
    have e4 := cntAll_le_preC (fun i => hash_values i % num_channels) num_rows c
    have e5 := cntAll_le_preC (fun i => hash_values i % num_channels) num_rows (c + 1)
    omega
  refine ⟨?_, ?_, ?_, ?_⟩
  · exact hashpart_perm (fun i => hash_values i % num_channels) num_rows num_channels hN hch
      _ _ hfin1 hfin2
  · intro c hc
    exact hashpart_segments (fun i => hash_values i % num_channels) num_rows num_channels
      _ _ hfin1 hfin2 c hc
  · intro c f s
    exact (hashpart_invocations _ channel_lo num_channels
      (cntAll (fun i => hash_values i % num_channels) num_rows) hsz).1 c f s
  · exact (hashpart_invocations _ channel_lo num_channels
      (cntAll (fun i => hash_values i % num_channels) num_rows) hsz).2

/-- C5 counterexample: two channels, channel 1's destination has
`fragment_instance_id.lo = -1`, and the single row hashes to channel 1:
the channel received one row, yet `add_rows_selective` is never
invoked, contradicting the claim that it is invoked once per channel
that received at least one row. -/
theorem send_chunk_unreachable_counterexample :
    (send_chunk_hash_partitioned (fun _ => 1) 1 2
        (fun c => if c = 1 then -1 else 0)).start_points 2 -
      (send_chunk_hash_partitioned (fun _ => 1) 1 2
        (fun c => if c = 1 then -1 else 0)).start_points 1 = 1 ∧
    (send_chunk_hash_partitioned (fun _ => 1) 1 2
        (fun c => if c = 1 then -1 else 0)).invocations = [] := by
  constructor
  · rfl
  · rfl

/-- C5 witness: three rows `0,1,2` hashed by identity over two
channels: channel 0's segment holds rows `[0, 2]` and is dispatched
with `from = 0`, `size = 2`. -/
theorem send_chunk_hash_partition_witness :
    ((List.range' ((send_chunk_hash_partitioned (fun i => i) 3 2 (fun _ => 0)).start_points 0)
        ((send_chunk_hash_partitioned (fun i => i) 3 2 (fun _ => 0)).start_points 1 -
          (send_chunk_hash_partitioned (fun i => i) 3 2 (fun _ => 0)).start_points 0)).map
      (send_chunk_hash_partitioned (fun i => i) 3 2 (fun _ => 0)).row_indexes = [0, 2]) ∧
    (0, 0, 2) ∈ (send_chunk_hash_partitioned (fun i => i) 3 2 (fun _ => 0)).invocations := by
  have h := send_chunk_hash_partition_spec (fun i => i) 3 2 (fun _ => 0)
    (send_chunk_hash_partitioned (fun i => i) 3 2 (fun _ => 0)) (by decide) rfl
  constructor
  · rw [h.2.1 0 (by decide)]
    decide
  · exact (h.2.2.1 0 0 2).mpr ⟨by decide, by decide, by rfl, by decide, by decide⟩

end StarRocks
